import Mathlib

/-!
Verification of the shift-and-stack core of daomop/sns.py.

The development shallowly embeds the numerical kernel of sns.py:

* an exact model F of the IEEE double values the numpy code manipulates
  (not-a-number, signed infinity, finite values as exact rationals);
* the per-pixel combination statistics (np.nanmean, np.nanmedian, np.nansum,
  np.nanmax) from the STACKING_MODES table, and weighted_quantile
  (sns.py lines 50 to 74), modelled per pixel: every numpy operation in that
  function acts independently along axis 0, so one pixel column of N values
  and N weights determines one output pixel;
* the resampler down_sample_2d (lines 155 to 163, including the reshape
  failure mode, returned as Option) and up_sample_2d (lines 166 to 172,
  modelled by its net effect: block replication of the input into the
  output region);
* the tiled shift engine (lines 179 to 318): tile bounds, the per-frame
  skip test (line 258), pixel replication, the in-buffer integer shift via
  paired source and destination index ranges (lines 279 to 293), per-pixel
  combination with an abstract statistic, variance propagation and the
  down-sampled write-back into the output arrays, folded over the tile grid
  exactly as the two nested loops do;
* shift_rates (lines 321 to 334) with np.linspace and Python int truncation.

The astrometric collaborators (astropy WCS, mid-exposure times) are external
to this repository; the integer pixel shift a frame requires, computed at
lines 240 to 257 from the frame alone (no tile quantity enters those lines),
is therefore carried as per-frame input data dx, dy of the model.
-/

namespace SNS

attribute [local semireducible] Rat.add Rat.mul Rat.sub Rat.inv

/-- Model of an IEEE double as handled by the numpy code in sns.py:
not-a-number, a signed infinity (inf true is positive infinity), or a finite
value represented exactly as a rational.  Negative zero is not modelled; the
embedded code paths never distinguish it. -/
inductive F where
  | nan : F
  | inf : Bool → F
  | fin : ℚ → F
deriving DecidableEq, Repr

/-- np.isnan for one value. -/
def F.isnan : F → Bool
  | .nan => true
  | _ => false

/-- np.isinf for one value (true on both infinities, line 70 of sns.py). -/
def F.isinf : F → Bool
  | .inf _ => true
  | _ => false

/-- IEEE addition on the model (sum of opposite infinities is not-a-number). -/
def F.add : F → F → F
  | .nan, _ => .nan
  | _, .nan => .nan
  | .inf s, .inf t => if s = t then .inf s else .nan
  | .inf s, .fin _ => .inf s
  | .fin _, .inf t => .inf t
  | .fin a, .fin b => .fin (a + b)

/-- IEEE subtraction on the model. -/
def F.sub : F → F → F
  | .nan, _ => .nan
  | _, .nan => .nan
  | .inf s, .inf t => if s = t then .nan else .inf s
  | .inf s, .fin _ => .inf s
  | .fin _, .inf t => .inf (!t)
  | .fin a, .fin b => .fin (a - b)

/-- IEEE multiplication on the model (zero times infinity is not-a-number). -/
def F.mul : F → F → F
  | .nan, _ => .nan
  | _, .nan => .nan
  | .inf s, .inf t => .inf (s == t)
  | .inf s, .fin b => if b = 0 then .nan else .inf (s == decide (0 < b))
  | .fin a, .inf t => if a = 0 then .nan else .inf (t == decide (0 < a))
  | .fin a, .fin b => .fin (a * b)

/-- IEEE division on the model.  The only zero is positive zero, so x / 0
carries the sign of x, and 0 / 0 is not-a-number, exactly the numpy
behaviour on line 72 of sns.py when the total weight vanishes. -/
def F.div : F → F → F
  | .nan, _ => .nan
  | _, .nan => .nan
  | .inf _, .inf _ => .nan
  | .inf s, .fin b => if b = 0 then .inf s else .inf (s == decide (0 < b))
  | .fin _, .inf _ => .fin 0
  | .fin a, .fin b =>
      if b = 0 then (if a = 0 then .nan else .inf (decide (0 < a))) else .fin (a / b)

/-- IEEE comparison: any comparison with not-a-number is false, which is what
makes np.argmin(weighted_quantiles <= quantile) on line 73 see false at
not-a-number entries. -/
def F.le : F → F → Bool
  | .nan, _ => false
  | _, .nan => false
  | .inf s, .inf t => !s || t
  | .inf s, .fin _ => !s
  | .fin _, .inf t => t
  | .fin a, .fin b => decide (a ≤ b)

/-- The total order used by np.sort and np.argsort: not-a-number sorts to the
end, negative infinity first. -/
def F.sortLe (x y : F) : Bool :=
  if y.isnan then true else if x.isnan then false else x.le y

/-- The finite payload of a value, zero otherwise (used only where the
surrounding code has already excluded the other cases). -/
def F.toQ : F → ℚ
  | .fin a => a
  | _ => 0

/-- The contribution of one entry to a nan-aware sum: np.nansum and
np.nancumsum treat a not-a-number entry as zero. -/
def F.nanToZero (x : F) : F := if x.isnan then .fin 0 else x

/-- Running sums of np.nancumsum starting from a given accumulator. -/
def nancumsumFrom (acc : F) : List F → List F
  | [] => []
  | x :: xs =>
      let a := acc.add x.nanToZero
      a :: nancumsumFrom a xs

/-- np.nancumsum along the stack axis at one pixel (line 71 of sns.py). -/
def nancumsum (l : List F) : List F := nancumsumFrom (.fin 0) l

/-- np.nansum at one pixel: the sum of the entries with not-a-number treated
as zero; the empty and the all-not-a-number sums are zero. -/
def nansum (l : List F) : F :=
  l.foldl (fun acc x => acc.add x.nanToZero) (.fin 0)

/-- np.nanmean at one pixel: the mean of the valid entries, not-a-number when
no entry is valid. -/
def nanmean (l : List F) : F :=
  let valid := l.filter (fun x => !x.isnan)
  if valid.length = 0 then .nan
  else (valid.foldl F.add (.fin 0)).div (.fin (valid.length : ℚ))

/-- The sort order relation underlying np.sort, as a proposition. -/
def FOrd (x y : F) : Prop := F.sortLe x y = true

instance : DecidableRel FOrd := fun x y => instDecidableEqBool (F.sortLe x y) true

/-- np.nanmedian at one pixel: sort the valid entries; the middle one for an
odd count, the average of the two middle ones for an even count,
not-a-number when no entry is valid. -/
def nanmedian (l : List F) : F :=
  let valid := List.insertionSort FOrd (l.filter (fun x => !x.isnan))
  let n := valid.length
  if n = 0 then .nan
  else if n % 2 = 1 then valid.getD (n / 2) .nan
  else ((valid.getD (n / 2 - 1) .nan).add (valid.getD (n / 2) .nan)).div (.fin 2)

/-- np.nanmax at one pixel: the largest valid entry, not-a-number when no
entry is valid. -/
def nanmax (l : List F) : F :=
  match l.filter (fun x => !x.isnan) with
  | [] => .nan
  | x :: xs => xs.foldl (fun a b => if a.le b then b else a) x

/-- The sort order on (value, weight) pairs comparing values only, i.e. the
permutation np.argsort(values, axis=0) applied simultaneously to values and
weights by the two take_along_axis calls on lines 66 to 68 of sns.py.
np.argsort with the default kind leaves the relative order of tied values
unspecified; the model fixes the stable order.  Every theorem below either
holds for any tie order (the weights attached to tied values are equal) or
is evaluated on inputs without ties. -/
def pairOrd (p q : F × F) : Prop := F.sortLe p.1 q.1 = true

instance : DecidableRel pairOrd := fun p q => instDecidableEqBool (F.sortLe p.1 q.1) true

/-- The (value, weight) pairs of one pixel column, sorted by value: the
combined effect of lines 66 to 68 of sns.py. -/
def sortedPairs (values sample_weight : List F) : List (F × F) :=
  List.insertionSort pairOrd (values.zip sample_weight)

/-- Line 70 of sns.py: sample_weight(isinf(sample_weight)) = 0. -/
def zeroInf (w : F) : F := if w.isinf then F.fin 0 else w

/-- The sorted values (line 67: take_along_axis of values by the argsort
permutation). -/
def sortedValues (values sample_weight : List F) : List F :=
  (sortedPairs values sample_weight).map Prod.fst

/-- The sorted weights after the infinite entries are zeroed (lines 68 and
70: take_along_axis of the weights by the same permutation, then
sample_weight(isinf(sample_weight)) = 0). -/
def sortedWeights (values sample_weight : List F) : List F :=
  ((sortedPairs values sample_weight).map Prod.snd).map zeroInf

/-- Line 71: weighted_quantiles = np.nancumsum(sample_weight) -
0.5 * sample_weight, elementwise. -/
def wqList (values sample_weight : List F) : List F :=
  (nancumsum (sortedWeights values sample_weight)).zipWith
    (fun c w => c.sub ((F.fin (1/2)).mul w)) (sortedWeights values sample_weight)

/-- Line 72: weighted_quantiles /= np.nansum(sample_weight), elementwise. -/
def wqnList (values sample_weight : List F) : List F :=
  (wqList values sample_weight).map
    (fun x => x.div (nansum (sortedWeights values sample_weight)))

/-- The boolean comparison array weighted_quantiles <= quantile of line 73
(false at every not-a-number entry, as IEEE comparison dictates). -/
def maskList (values : List F) (quantile : ℚ) (sample_weight : List F) : List Bool :=
  (wqnList values sample_weight).map (fun x => x.le (F.fin quantile))

/-- np.argmin over a boolean array (line 73): the first index holding false
when one exists (false is the minimum), and index 0 when the array is all
true (the first occurrence of the minimum true). -/
def argminBool (mask : List Bool) : ℕ :=
  if mask.findIdx (fun b => !b) < mask.length then mask.findIdx (fun b => !b) else 0

/-- Embedding of weighted_quantile (sns.py lines 50 to 74) at one pixel
column.  Sort values carrying weights along, zero the infinite weights, form
np.nancumsum(w) - 0.5 * w, divide by np.nansum(w), compare elementwise
against the quantile, take np.argmin of the boolean comparison array, and
return the sorted value at that index. -/
def weighted_quantile (values : List F) (quantile : ℚ) (sample_weight : List F) : F :=
  (sortedValues values sample_weight).getD
    (argminBool (maskList values quantile sample_weight)) F.nan

/-- The stack of values of one pixel column sorted as np.sort would return
it (reference point for the median claims). -/
def sortedStack (values : List F) : List F := List.insertionSort FOrd values

/-! ## Resampler -/

/-- A two-dimensional array: a shape and total data access (indices outside
the shape are never consulted by the embedded code). -/
@[ext]
structure Img where
  h : ℕ
  w : ℕ
  data : ℕ → ℕ → F

/-- Sum of a list of values (the reduction underlying the numpy mean on line
163; the summation order is immaterial for every property proved here). -/
def Fsum (l : List F) : F := l.foldr F.add (.fin 0)

/-- Embedding of down_sample_2d (sns.py lines 155 to 163).

new_shape = (h / fr, w / fr) by Python floor division; the factor is then
recomputed as fr2 = (h / new_shape0, w / new_shape1), and the array is
reshaped to (new_shape0, fr2.0, new_shape1, fr2.1) and averaged over axes 1
and 3.  In row-major order the reshape maps source index (r, c) to block
(r / fr2.0, r % fr2.0, c / fr2.1, c % fr2.1), so the output entry (i, j) is
the mean of the fr2-block at (i, j).  The reshape raises ValueError when the
block grid does not tile the array exactly, and Python raises
ZeroDivisionError when fr or a new_shape component is zero; both are
returned as none. -/
def down_sample_2d (inp : Img) (fr : ℕ) : Option Img :=
  if fr = 0 then none
  else
    let nh := inp.h / fr
    let nw := inp.w / fr
    if nh = 0 ∨ nw = 0 then none
    else
      let f0 := inp.h / nh
      let f1 := inp.w / nw
      if inp.h = nh * f0 ∧ inp.w = nw * f1 then
        some ⟨nh, nw, fun i j =>
          (Fsum ((List.range f0).flatMap (fun a =>
            (List.range f1).map (fun b => inp.data (i * f0 + a) (j * f1 + b))))).div
            (F.fin ((f0 : ℚ) * (f1 : ℚ)))⟩
      else none

/-- Embedding of up_sample_2d (sns.py lines 166 to 172) by its net effect:
the strided assignments write input(a, b) to every output position
(rf * a + y, rf * b + x) with y, x < rf, so the output at (i, j) inside the
written region is the input at (i / rf, j / rf): block-constant pixel
replication. -/
def up_sample_2d (input_array : Img) (rf : ℕ) : Img :=
  ⟨rf * input_array.h, rf * input_array.w,
   fun i j => input_array.data (i / rf) (j / rf)⟩

/-! ## Rate grid -/

/-- Python int() applied to an exact rational: truncation toward zero (the
numerator divided by the denominator with the remainder discarded). -/
def pyInt (q : ℚ) : ℤ := q.num.tdiv q.den

/-- np.linspace(a, b, num) with the default endpoint=True: num equally
spaced samples from a to b inclusive.  For num = 1 the single sample is a. -/
def linspace (a b : ℚ) (num : ℕ) : List ℚ :=
  if num = 1 then [a]
  else (List.range num).map (fun i : ℕ => a + (i : ℚ) * (b - a) / ((num : ℚ) - 1))

/-- One motion hypothesis produced by shift_rates. -/
structure Rate where
  rate : ℚ
  angle : ℚ
deriving DecidableEq, Repr

/-- The sample count int((hi - lo) / step) + 1 used by both linspace calls of
shift_rates (clamped at zero; numpy raises on a negative count, which no
theorem below reaches). -/
def gridCount (lo hi step : ℚ) : ℕ := (pyInt ((hi - lo) / step) + 1).toNat

/-- Embedding of shift_rates (sns.py lines 321 to 334): the outer loop runs
over the angle samples, the inner loop over the rate samples, appending one
hypothesis per pair. -/
def shift_rates (r_min r_max r_step angle_min angle_max angle_step : ℚ) : List Rate :=
  (linspace angle_min angle_max (gridCount angle_min angle_max angle_step)).flatMap
    (fun dd => (linspace r_min r_max (gridCount r_min r_max r_step)).map
      (fun dr => ⟨dr, dd⟩))

/-! ## Tiled shift engine -/

/-- The fixed padding margin of the tile loop (sns.py line 207). -/
def padding : ℕ := 130

/-- One input frame as consumed by shift: its image and variance planes on
the common pixel grid of the reference, and the integer pixel shift (dx, dy)
on the rf-times up-sampled grid that the frame requires for the hypothesis
under evaluation.  Lines 240 to 257 compute dx and dy from the frame, the
rate and the reference alone; no tile quantity enters them, so the model
carries them as per-frame data (the WCS arithmetic itself belongs to the
external astropy collaborator). -/
structure Frame where
  image : ℕ → ℕ → F
  variance : ℕ → ℕ → F
  dx : ℤ
  dy : ℤ

/-- The skip test of line 258: a frame is dropped from the current tile when
the magnitude of its shift exceeds the padding margin in either axis. -/
def skipFrame (f : Frame) : Bool :=
  decide ((padding : ℤ) < |f.dx|) || decide ((padding : ℤ) < |f.dy|)

/-- The frames surviving the skip test, in input order: the continue on line
260 removes a skipped frame from the stack of the current tile and proceeds
with the remaining frames. -/
def retainedFrames (hdus : List Frame) : List Frame :=
  hdus.filter (fun f => !skipFrame f)

/-- np.arange(0, n, s) for a positive integer step. -/
def arange (n s : ℕ) : List ℕ :=
  (List.range ((n + s - 1) / s)).map (· * s)

/-- Tile lower slice bound: y1 = max(0, yo - padding), by truncated
subtraction (line 219). -/
def t_lo (yo : ℕ) : ℕ := yo - padding

/-- Tile interior upper bound: yp = min(n, yo + section_size) (line 220). -/
def t_hi (n s yo : ℕ) : ℕ := min n (yo + s)

/-- Tile upper slice bound: y2 = min(n, yp + padding) (line 221). -/
def t_hi2 (n s yo : ℕ) : ℕ := min n (t_hi n s yo + padding)

/-- The shifted, up-sampled plane of one frame inside one tile slab.  The
slab is the sub-array rows y1 to y2, columns x1 to x2, replicated rf-fold in
each axis (the two np.repeat calls, lines 270 to 275); the integer shift is
realised by the paired source and destination ranges of lines 279 to 293: a
destination position (i, j) inside the destination rectangle receives the
pre-shift value at (i - dy, j - dx), and every position outside the
destination rectangle keeps its stale pre-shift value.  For 0 <= i < the
slab height, membership of i in the destination row range is equivalent to
0 <= i - dy < slab height, for either sign of dy, and likewise in j. -/
def shiftedPlane (plane : ℕ → ℕ → F) (dy dx : ℤ) (y1 y2 x1 x2 rf : ℕ)
    (i j : ℕ) : F :=
  if 0 ≤ (i : ℤ) - dy ∧ (i : ℤ) - dy < ((rf * (y2 - y1) : ℕ) : ℤ) ∧
     0 ≤ (j : ℤ) - dx ∧ (j : ℤ) - dx < ((rf * (x2 - x1) : ℕ) : ℤ) then
    plane (y1 + ((i : ℤ) - dy).toNat / rf) (x1 + ((j : ℤ) - dx).toNat / rf)
  else
    plane (y1 + i / rf) (x1 + j / rf)

/-- The outs list of one tile at one up-sampled position: the shifted image
planes of the retained frames, in input order (lines 237 to 294). -/
def tileOuts (hdus : List Frame) (y1 y2 x1 x2 rf i j : ℕ) : List F :=
  (retainedFrames hdus).map
    (fun f => shiftedPlane f.image f.dy f.dx y1 y2 x1 x2 rf i j)

/-- The variances list of one tile at one up-sampled position. -/
def tileVars (hdus : List Frame) (y1 y2 x1 x2 rf i j : ℕ) : List F :=
  (retainedFrames hdus).map
    (fun f => shiftedPlane f.variance f.dy f.dx y1 y2 x1 x2 rf i j)

/-- A per-pixel combination statistic: from the stack of shifted image
values and the stack of shifted variances at one up-sampled pixel to one
combined value.  Both branches of lines 302 to 305 have this shape: the
weighted quantile consumes values and inverse variances, the nan-aware
statistics consume the values alone.  Theorems about the tiling hold for
every such statistic. -/
def Combine : Type := List F → List F → F

/-- Line 299: the per-pixel count of frames contributing a valid value. -/
def numFrames (hdus : List Frame) (y1 y2 x1 x2 rf i j : ℕ) : ℕ :=
  (tileOuts hdus y1 y2 x1 x2 rf i j).countP (fun x => !x.isnan)

/-- The combined image of one tile slab before down-sampling, as an Img of
shape rf*(y2-y1) by rf*(x2-x1). -/
def tileStackImg (g : Combine) (hdus : List Frame) (y1 y2 x1 x2 rf : ℕ) : Img :=
  ⟨rf * (y2 - y1), rf * (x2 - x1), fun i j =>
    g (tileOuts hdus y1 y2 x1 x2 rf i j) (tileVars hdus y1 y2 x1 x2 rf i j)⟩

/-- The combined variance of one tile slab before down-sampling (line 307):
the nan-aware mean of the variance stack divided by the per-pixel count of
valid contributing frames. -/
def tileStackVar (hdus : List Frame) (y1 y2 x1 x2 rf : ℕ) : Img :=
  ⟨rf * (y2 - y1), rf * (x2 - x1), fun i j =>
    (nanmean (tileVars hdus y1 y2 x1 x2 rf i j)).div
      (F.fin ((numFrames hdus y1 y2 x1 x2 rf i j : ℚ)))⟩

/-- The value a tile writes into the full output array at absolute pixel
(r, c) of its interior: the down-sampled slab, offset by the padding trim
(lines 310 and 311 index the down-sampled array at yl + (r - yo) and
xl + (c - xo)). -/
def tileWriteVal (slab : Img) (rf yo xo r c : ℕ) : F :=
  ((down_sample_2d slab rf).getD ⟨0, 0, fun _ _ => F.nan⟩).data
    ((yo - t_lo yo) + (r - yo)) ((xo - t_lo xo) + (c - xo))

/-- Overwriting the rectangle yo <= r < yp, xo <= c < xp of an output array
with new values: the slice assignments of lines 310 and 311. -/
def writeTile (out : ℕ → ℕ → F) (yo yp xo xp : ℕ) (v : ℕ → ℕ → F) :
    ℕ → ℕ → F :=
  fun r c => if yo ≤ r ∧ r < yp ∧ xo ≤ c ∧ c < xp then v r c else out r c

/-- The tile origin grid of the two nested loops (lines 214 and 224): outer
loop over y sections, inner loop over x sections. -/
def tileGrid (H W S : ℕ) : List (ℕ × ℕ) :=
  (arange H S).flatMap (fun yo => (arange W S).map (fun xo => (yo, xo)))

/-- Folding the per-tile writes over the tile grid, starting from the
np.zeros output array (lines 205 and 206). -/
def foldTiles (H W S : ℕ) (tv : ℕ → ℕ → ℕ → ℕ → F) : ℕ → ℕ → F :=
  (tileGrid H W S).foldl
    (fun out t =>
      writeTile out t.1 (t_hi H S t.1) t.2 (t_hi W S t.2) (tv t.1 t.2))
    (fun _ _ => F.fin 0)

/-- The output image array of shift, as a function of the combination
statistic, the frames, the reference shape H by W, the up-sampling factor rf
and the section size S. -/
def shiftImage (g : Combine) (hdus : List Frame) (H W rf S : ℕ) : ℕ → ℕ → F :=
  foldTiles H W S (fun yo xo =>
    tileWriteVal
      (tileStackImg g hdus (t_lo yo) (t_hi2 H S yo) (t_lo xo) (t_hi2 W S xo) rf)
      rf yo xo)

/-- The output variance array of shift (independent of the combination
statistic, line 307). -/
def shiftVariance (hdus : List Frame) (H W rf S : ℕ) : ℕ → ℕ → F :=
  foldTiles H W S (fun yo xo =>
    tileWriteVal
      (tileStackVar hdus (t_lo yo) (t_hi2 H S yo) (t_lo xo) (t_hi2 W S xo) rf)
      rf yo xo)

/-- The tile-free shifted plane of one frame at an absolute up-sampled
position (u, v): the same shift applied on the up-sampled full grid, with
the stale-edge rule cut at the image boundary. -/
def globalShifted (plane : ℕ → ℕ → F) (dy dx : ℤ) (H W rf : ℕ) (u v : ℕ) : F :=
  if 0 ≤ (u : ℤ) - dy ∧ (u : ℤ) - dy < ((rf * H : ℕ) : ℤ) ∧
     0 ≤ (v : ℤ) - dx ∧ (v : ℤ) - dx < ((rf * W : ℕ) : ℤ) then
    plane (((u : ℤ) - dy).toNat / rf) (((v : ℤ) - dx).toNat / rf)
  else
    plane (u / rf) (v / rf)

/-- The tile-free outs stack at an absolute up-sampled position. -/
def globalOuts (hdus : List Frame) (H W rf u v : ℕ) : List F :=
  (retainedFrames hdus).map (fun f => globalShifted f.image f.dy f.dx H W rf u v)

/-- The tile-free variance stack at an absolute up-sampled position. -/
def globalVars (hdus : List Frame) (H W rf u v : ℕ) : List F :=
  (retainedFrames hdus).map (fun f => globalShifted f.variance f.dy f.dx H W rf u v)

/-- The tile-free value of one output image pixel: the rf by rf block mean
of the combined statistic over the up-sampled positions covering (r, c). -/
def globalImagePixel (g : Combine) (hdus : List Frame) (H W rf r c : ℕ) : F :=
  (Fsum ((List.range rf).flatMap (fun a => (List.range rf).map (fun b =>
    g (globalOuts hdus H W rf (r * rf + a) (c * rf + b))
      (globalVars hdus H W rf (r * rf + a) (c * rf + b)))))).div
    (F.fin ((rf : ℚ) * (rf : ℚ)))

/-- The tile-free value of one output variance pixel. -/
def globalVarPixel (hdus : List Frame) (H W rf r c : ℕ) : F :=
  (Fsum ((List.range rf).flatMap (fun a => (List.range rf).map (fun b =>
    (nanmean (globalVars hdus H W rf (r * rf + a) (c * rf + b))).div
      (F.fin (((globalOuts hdus H W rf (r * rf + a) (c * rf + b)).countP
        (fun x => !x.isnan) : ℚ))))))).div
    (F.fin ((rf : ℚ) * (rf : ℚ)))

/-! ## Helper lemmas -/

/-- The k-th sample of linspace a b n, as a closed formula. -/
def linVal (a b : ℚ) (n k : ℕ) : ℚ :=
  if n = 1 then a else a + (k : ℚ) * (b - a) / ((n : ℚ) - 1)

theorem length_linspace (a b : ℚ) (n : ℕ) : (linspace a b n).length = n := by
  unfold linspace
  split
  · simp only [List.length_cons, List.length_nil]
    omega
  · rw [List.length_map, List.length_range]

theorem getD_linspace (a b : ℚ) (n k : ℕ) (hk : k < n) :
    (linspace a b n).getD k 0 = linVal a b n k := by
  unfold linspace linVal
  split
  · have hk0 : k = 0 := by omega
    subst hk0
    rfl
  · have hlen : k < ((List.range n).map
        (fun i : ℕ => a + (i : ℚ) * (b - a) / ((n : ℚ) - 1))).length := by
      rw [List.length_map, List.length_range]
      exact hk
    rw [List.getD_eq_getElem _ _ hlen, List.getElem_map, List.getElem_range]

theorem length_prodList {α β γ : Type} (l1 : List α) (l2 : List β) (g : α → β → γ) :
    (l1.flatMap (fun a => l2.map (g a))).length = l1.length * l2.length := by
  induction l1 with
  | nil => simp
  | cons a t ih =>
      rw [List.flatMap_cons, List.length_append, List.length_map, ih,
        List.length_cons]
      ring

theorem getElemQ_prodList {α β γ : Type} (l1 : List α) (l2 : List β)
    (g : α → β → γ) (i j : ℕ) (hi : i < l1.length) (hj : j < l2.length) :
    (l1.flatMap (fun a => l2.map (g a)))[i * l2.length + j]? =
      some (g (l1.get ⟨i, hi⟩) (l2.get ⟨j, hj⟩)) := by
  induction l1 generalizing i with
  | nil => simp at hi
  | cons a t ih =>
      rw [List.flatMap_cons, List.getElem?_append]
      cases i with
      | zero =>
          rw [if_pos (by rw [List.length_map]; omega)]
          rw [List.getElem?_map]
          rw [Nat.zero_mul, Nat.zero_add, List.getElem?_eq_getElem hj]
          rfl
      | succ i =>
          have hge : (l2.map (g a)).length ≤ (i + 1) * l2.length + j := by
            rw [List.length_map]
            have : l2.length ≤ (i + 1) * l2.length := by
              calc l2.length = 1 * l2.length := (Nat.one_mul _).symm
              _ ≤ (i + 1) * l2.length := Nat.mul_le_mul_right _ (by omega)
            omega
          rw [if_neg (by omega)]
          have hidx : (i + 1) * l2.length + j - (l2.map (g a)).length =
              i * l2.length + j := by
            rw [List.length_map, Nat.succ_mul]
            omega
          rw [hidx, ih i (by simpa using hi)]
          rfl

theorem getD_prodList {α β γ : Type} (l1 : List α) (l2 : List β) (g : α → β → γ)
    (d : γ) (i j : ℕ) (hi : i < l1.length) (hj : j < l2.length) :
    (l1.flatMap (fun a => l2.map (g a))).getD (i * l2.length + j) d =
      g (l1.get ⟨i, hi⟩) (l2.get ⟨j, hj⟩) := by
  rw [List.getD_eq_getElem?_getD, getElemQ_prodList l1 l2 g i j hi hj]
  rfl

/-! ## Claim C3: the rate and angle search grid -/

/-- Claim C3 counterexample: the claim asserts shift_rates(0,1,1,0,0,1)
yields exactly one hypothesis with rate 0 and angle 0.  The code computes
int((1-0)/1)+1 = 2 rate samples, so the call yields two hypotheses,
rates 0 and 1. -/
theorem c3_counterexample :
    shift_rates 0 1 1 0 0 1 = [⟨0, 0⟩, ⟨1, 0⟩] ∧
      shift_rates 0 1 1 0 0 1 ≠ [⟨0, 0⟩] := by
  constructor
  · decide
  · decide

/-- Claim C3 amended: shift_rates enumerates the Cartesian product of the
linspace samples, outer loop over angle and inner loop over rate, with
int((max-min)/step)+1 samples per axis where int truncates toward zero (not
round); the hypothesis at flat position i * (rate count) + j carries the
j-th rate sample and the i-th angle sample.  shift_rates(0,1,1,0,0,1)
yields the two hypotheses (rate 0, angle 0), (rate 1, angle 0);
shift_rates(0,2,1,0,0,1) yields exactly the rates 0, 1, 2 in that order;
and the truncated count differs from the rounded count the claim states,
e.g. int(1.9)+1 = 2 where round(1.9)+1 = 3. -/
theorem c3_amended :
    (∀ r_min r_max r_step angle_min angle_max angle_step : ℚ,
      (shift_rates r_min r_max r_step angle_min angle_max angle_step).length =
        gridCount angle_min angle_max angle_step * gridCount r_min r_max r_step) ∧
    (∀ r_min r_max r_step angle_min angle_max angle_step : ℚ, ∀ i j : ℕ,
      i < gridCount angle_min angle_max angle_step →
      j < gridCount r_min r_max r_step →
      (shift_rates r_min r_max r_step angle_min angle_max angle_step).getD
          (i * gridCount r_min r_max r_step + j) ⟨0, 0⟩ =
        ⟨linVal r_min r_max (gridCount r_min r_max r_step) j,
         linVal angle_min angle_max (gridCount angle_min angle_max angle_step) i⟩) ∧
    shift_rates 0 1 1 0 0 1 = [⟨0, 0⟩, ⟨1, 0⟩] ∧
    shift_rates 0 2 1 0 0 1 = [⟨0, 0⟩, ⟨1, 0⟩, ⟨2, 0⟩] ∧
    gridCount 0 (19/10) 1 = 2 := by
  refine ⟨?_, ?_, by decide, by decide, by decide⟩
  · intro r_min r_max r_step angle_min angle_max angle_step
    unfold shift_rates
    rw [length_prodList, length_linspace, length_linspace]
  · intro r_min r_max r_step angle_min angle_max angle_step i j hi hj
    have h1 : i < (linspace angle_min angle_max
        (gridCount angle_min angle_max angle_step)).length := by
      rw [length_linspace]; exact hi
    have h2 : j < (linspace r_min r_max (gridCount r_min r_max r_step)).length := by
      rw [length_linspace]; exact hj
    have key := getD_prodList
      (linspace angle_min angle_max (gridCount angle_min angle_max angle_step))
      (linspace r_min r_max (gridCount r_min r_max r_step))
      (fun dd dr => (⟨dr, dd⟩ : Rate)) (⟨0, 0⟩ : Rate) i j h1 h2
    have hidx : i * gridCount r_min r_max r_step + j =
        i * (linspace r_min r_max (gridCount r_min r_max r_step)).length + j := by
      rw [length_linspace]
    rw [hidx]
    have e1 : (linspace angle_min angle_max
        (gridCount angle_min angle_max angle_step)).get ⟨i, h1⟩ =
        linVal angle_min angle_max (gridCount angle_min angle_max angle_step) i := by
      have hg := getD_linspace angle_min angle_max _ i hi
      rw [List.getD_eq_getElem _ _ h1] at hg
      rw [List.get_eq_getElem]
      exact hg
    have e2 : (linspace r_min r_max (gridCount r_min r_max r_step)).get ⟨j, h2⟩ =
        linVal r_min r_max (gridCount r_min r_max r_step) j := by
      have hg := getD_linspace r_min r_max _ j hj
      rw [List.getD_eq_getElem _ _ h2] at hg
      rw [List.get_eq_getElem]
      exact hg
    exact key.trans (by rw [e1, e2])

/-- Witness for the amended claim C3 at the second concrete grid of the
claim: the hypothesis at flat position 1 of shift_rates(0,2,1,0,0,1) is
rate sample 1, angle sample 0. -/
theorem c3_witness :
    (0 : ℕ) < gridCount 0 0 1 ∧ (1 : ℕ) < gridCount 0 2 1 ∧
      (shift_rates 0 2 1 0 0 1).getD (0 * gridCount 0 2 1 + 1) ⟨0, 0⟩ =
        ⟨linVal 0 2 (gridCount 0 2 1) 1, linVal 0 0 (gridCount 0 0 1) 0⟩ :=
  ⟨by decide, by decide, c3_amended.2.1 0 2 1 0 0 1 0 1 (by decide) (by decide)⟩

/-! ## Claim C7: the padding skip condition -/

theorem skipFrame_eq_false_iff (f : Frame) :
    skipFrame f = false ↔ |f.dx| ≤ (padding : ℤ) ∧ |f.dy| ≤ (padding : ℤ) := by
  unfold skipFrame
  rw [Bool.or_eq_false_iff]
  simp [not_lt]

/-- A frame whose shift sits exactly at the padding margin. -/
def frameAtBoundary : Frame := ⟨fun _ _ => F.fin 0, fun _ _ => F.fin 0, 130, 130⟩

/-- A frame whose x shift is one pixel beyond the padding margin. -/
def frameBeyondBoundary : Frame := ⟨fun _ _ => F.fin 0, fun _ _ => F.fin 0, 131, 0⟩

/-- A frame whose y shift is one pixel beyond the padding margin, negative. -/
def frameBeyondBoundaryY : Frame := ⟨fun _ _ => F.fin 0, fun _ _ => F.fin 0, 0, -131⟩

/-- Claim C7: a frame enters a tile stack if and only if the magnitude of
its shift is at most the padding margin in both axes (the strict test on
line 258 skips it otherwise); a skipped frame is simply dropped from the
stack with the remaining frames still processed (the continue on line 260),
and the per-tile stack is exactly the retained frames; a frame exactly at
the margin (130) is kept, one pixel beyond (131, in either axis and either
sign) is dropped. -/
theorem c7_resampling_skip :
    (∀ (hdus : List Frame) (f : Frame),
        f ∈ retainedFrames hdus ↔
          f ∈ hdus ∧ |f.dx| ≤ (padding : ℤ) ∧ |f.dy| ≤ (padding : ℤ)) ∧
    (∀ (a : Frame) (rest : List Frame), skipFrame a = true →
        retainedFrames (a :: rest) = retainedFrames rest) ∧
    (∀ (a : Frame) (rest : List Frame), skipFrame a = false →
        retainedFrames (a :: rest) = a :: retainedFrames rest) ∧
    (∀ (hdus : List Frame) (y1 y2 x1 x2 rf i j : ℕ),
        (tileOuts hdus y1 y2 x1 x2 rf i j).length = (retainedFrames hdus).length) ∧
    skipFrame frameAtBoundary = false ∧
    skipFrame frameBeyondBoundary = true ∧
    skipFrame frameBeyondBoundaryY = true := by
  refine ⟨?_, ?_, ?_, ?_, by decide, by decide, by decide⟩
  · intro hdus f
    unfold retainedFrames
    rw [List.mem_filter, Bool.not_eq_true', skipFrame_eq_false_iff]
  · intro a rest h
    unfold retainedFrames
    rw [List.filter_cons, if_neg (by simp [h])]
  · intro a rest h
    unfold retainedFrames
    rw [List.filter_cons, if_pos (by simp [h])]
  · intro hdus y1 y2 x1 x2 rf i j
    unfold tileOuts
    rw [List.length_map]

/-- Witness for claim C7: the boundary frame with shift 131 is skipped, and
dropping it from a list leaves the remaining frames processed. -/
theorem c7_witness :
    skipFrame frameBeyondBoundary = true ∧
      retainedFrames [frameBeyondBoundary, frameAtBoundary] =
        retainedFrames [frameAtBoundary] :=
  ⟨by decide, c7_resampling_skip.2.1 frameBeyondBoundary [frameAtBoundary] (by decide)⟩

/-! ## Claims C8 and C10: the resampler -/

theorem Fsum_cons (x : F) (l : List F) : Fsum (x :: l) = F.add x (Fsum l) :=
  List.foldr_cons l

theorem F.nan_add (x : F) : F.add F.nan x = F.nan := by cases x <;> rfl

theorem F.fin_add_fin (a b : ℚ) : F.add (F.fin a) (F.fin b) = F.fin (a + b) := rfl

theorem F.inf_add_self (s : Bool) : F.add (F.inf s) (F.inf s) = F.inf s := by
  show (if s = s then F.inf s else F.nan) = F.inf s
  rw [if_pos rfl]

theorem F.inf_add_fin (s : Bool) (a : ℚ) : F.add (F.inf s) (F.fin a) = F.inf s := rfl

theorem Fsum_replicate_fin (n : ℕ) (a : ℚ) :
    Fsum (List.replicate n (F.fin a)) = F.fin ((n : ℚ) * a) := by
  induction n with
  | zero =>
      show F.fin 0 = F.fin ((0 : ℚ) * a)
      norm_num
  | succ n ih =>
      rw [List.replicate_succ, Fsum_cons, ih, F.fin_add_fin]
      congr 1
      push_cast
      ring

theorem Fsum_replicate_nan (n : ℕ) (h : 1 ≤ n) :
    Fsum (List.replicate n F.nan) = F.nan := by
  cases n with
  | zero => omega
  | succ n => rw [List.replicate_succ, Fsum_cons, F.nan_add]

theorem Fsum_replicate_inf (n : ℕ) (s : Bool) (h : 1 ≤ n) :
    Fsum (List.replicate n (F.inf s)) = F.inf s := by
  induction n with
  | zero => omega
  | succ n ih =>
      rw [List.replicate_succ, Fsum_cons]
      cases n with
      | zero =>
          show F.add (F.inf s) (F.fin 0) = F.inf s
          rw [F.inf_add_fin]
      | succ m =>
          rw [ih (by omega), F.inf_add_self]

theorem flatMap_const_replicate {α : Type} (l : List α) (m : ℕ) (c : F)
    (g : α → List F) (hg : ∀ a ∈ l, g a = List.replicate m c) :
    l.flatMap g = List.replicate (l.length * m) c := by
  induction l with
  | nil => simp
  | cons a t ih =>
      rw [List.flatMap_cons, hg a (by simp),
        ih (fun x hx => hg x (by simp [hx])), ← List.replicate_add]
      congr 1
      rw [List.length_cons]
      ring

/-- The division at the end of a block mean: a finite block sum divided by
the positive block size, case by case over the sum. -/
theorem blockMean_div (x : F) (q : ℚ) (hq : 0 < q) :
    (x.div (F.fin q)) =
      match x with
      | F.nan => F.nan
      | F.inf s => F.inf s
      | F.fin a => F.fin (a / q) := by
  cases x with
  | nan => rfl
  | inf s =>
      show (if q = 0 then F.inf s else F.inf (s == decide (0 < q))) = F.inf s
      rw [if_neg (by positivity), decide_eq_true hq]
      cases s <;> rfl
  | fin a =>
      show (if q = 0 then _ else F.fin (a / q)) = F.fin (a / q)
      rw [if_neg (by positivity)]

/-- Claim C8: down-sampling the f-fold pixel-replication enlargement of any
(nonempty) array by the same factor f at least 1 recovers the array exactly.
The empty shapes are excluded because down_sample_2d of an empty array
raises in Python (division by a zero new shape). -/
theorem c8_down_up_roundtrip (X : Img) (f : ℕ) (hf : 1 ≤ f)
    (hh : 0 < X.h) (hw : 0 < X.w) :
    down_sample_2d (up_sample_2d X f) f = some X := by
  have hf0 : 0 < f := hf
  have e1 : f * X.h / f = X.h := Nat.mul_div_cancel_left _ hf0
  have e2 : f * X.w / f = X.w := Nat.mul_div_cancel_left _ hf0
  have e3 : f * X.h / X.h = f := Nat.mul_div_cancel _ hh
  have e4 : f * X.w / X.w = f := Nat.mul_div_cancel _ hw
  have hc1 : ¬(f = 0) := by omega
  have hc2 : ¬(X.h = 0 ∨ X.w = 0) := by omega
  unfold down_sample_2d up_sample_2d
  dsimp only
  simp only [e1, e2, e3, e4]
  rw [if_neg hc1, if_neg hc2,
    if_pos ⟨(Nat.mul_comm f X.h), (Nat.mul_comm f X.w)⟩]
  refine congrArg some (Img.ext rfl rfl ?_)
  funext i j
  dsimp only
  have hdiv : ∀ (i a : ℕ), a < f → (i * f + a) / f = i := by
    intro i a ha
    rw [show i * f + a = a + f * i by ring, Nat.add_mul_div_left _ _ hf0,
      Nat.div_eq_of_lt ha, Nat.zero_add]
  have hrep : ∀ a ∈ List.range f,
      (List.range f).map (fun b => X.data ((i * f + a) / f) ((j * f + b) / f)) =
        List.replicate f (X.data i j) := by
    intro a ha
    rw [List.mem_range] at ha
    have hpt : ∀ b ∈ List.range f,
        X.data ((i * f + a) / f) ((j * f + b) / f) = X.data i j := by
      intro b hb
      rw [List.mem_range] at hb
      rw [hdiv i a ha, hdiv j b hb]
    rw [List.map_congr_left hpt, List.map_const', List.length_range]
  have hblock : ((List.range f).flatMap (fun a =>
      (List.range f).map (fun b => X.data ((i * f + a) / f) ((j * f + b) / f)))) =
      List.replicate (f * f) (X.data i j) := by
    rw [flatMap_const_replicate _ f _ _ hrep, List.length_range]
  rw [hblock]
  have hq : (0 : ℚ) < (f : ℚ) * (f : ℚ) := by positivity
  cases hX : X.data i j with
  | nan =>
      rw [Fsum_replicate_nan _ (Nat.one_le_iff_ne_zero.mpr (by positivity)),
        blockMean_div _ _ hq]
  | inf s =>
      rw [Fsum_replicate_inf _ _ (Nat.one_le_iff_ne_zero.mpr (by positivity)),
        blockMean_div _ _ hq]
  | fin a =>
      rw [Fsum_replicate_fin, blockMean_div _ _ hq]
      push_cast
      field_simp

/-- Witness for claim C8 on a concrete 1 by 2 array at factor 3. -/
theorem c8_witness :
    (1 : ℕ) ≤ 3 ∧
      down_sample_2d (up_sample_2d ⟨1, 2, fun _ j => F.fin (j : ℚ)⟩ 3) 3 =
        some ⟨1, 2, fun _ j => F.fin (j : ℚ)⟩ :=
  ⟨by omega, c8_down_up_roundtrip ⟨1, 2, fun _ j => F.fin (j : ℚ)⟩ 3
    (by omega) (by decide) (by decide)⟩

/-- The 5 by 2 test array: 5 is not divisible by 2 and the recomputed block
grid 2 * (5 / 2) = 4 does not tile 5 rows, so the reshape fails. -/
def imgFiveByTwo : Img := ⟨5, 2, fun _ _ => F.fin 1⟩

/-- The 6 by 4 test array: rows 0 to 3 hold 0, rows 4 and 5 hold 12.  With
factor 4, the recomputed row block size is 6 / (6 / 4) = 6, which tiles the
6 rows, so the code silently averages 6 by 4 blocks instead of 4 by 4. -/
def imgSixByFour : Img := ⟨6, 4, fun i _ => if i < 4 then F.fin 0 else F.fin 12⟩

/-- Claim C10: down_sample_2d is f by f block averaging exactly under the
divisibility precondition (first conjunct); on a 5 by 2 input with factor 2
the internal reshape fails (second conjunct); on a 6 by 4 input with factor
4 the recomputed block size 6 / (6 / 4) = 6 silently tiles the array and the
single output pixel averages all 24 entries, giving 4 (third conjunct),
whereas truncating to the largest factor-4-compatible shape (the first 4 by
4 block) would give 0 (fourth conjunct), which differs (fifth conjunct):
the function never truncates. -/
theorem c10_down_sample_policy :
    (∀ (X : Img) (f k m : ℕ), 1 ≤ f → X.h = f * k → X.w = f * m →
        0 < k → 0 < m →
        down_sample_2d X f = some ⟨k, m, fun i j =>
          (Fsum ((List.range f).flatMap (fun a => (List.range f).map (fun b =>
            X.data (i * f + a) (j * f + b))))).div
            (F.fin ((f : ℚ) * (f : ℚ)))⟩) ∧
    down_sample_2d imgFiveByTwo 2 = none ∧
    (down_sample_2d imgSixByFour 4).map (fun Y => (Y.h, Y.w, Y.data 0 0)) =
      some (1, 1, F.fin 4) ∧
    (Fsum ((List.range 4).flatMap (fun a => (List.range 4).map (fun b =>
      imgSixByFour.data a b)))).div (F.fin ((4 : ℚ) * (4 : ℚ))) = F.fin 0 ∧
    F.fin 4 ≠ F.fin 0 := by
  refine ⟨?_, by rfl, by decide, by decide, by decide⟩
  intro X f k m hf hh hw hk hm
  have hf0 : 0 < f := hf
  have e1 : X.h / f = k := by rw [hh]; exact Nat.mul_div_cancel_left _ hf0
  have e2 : X.w / f = m := by rw [hw]; exact Nat.mul_div_cancel_left _ hf0
  have e3 : X.h / k = f := by rw [hh]; exact Nat.mul_div_cancel _ hk
  have e4 : X.w / m = f := by rw [hw]; exact Nat.mul_div_cancel _ hm
  have hc1 : ¬(f = 0) := by omega
  have hc2 : ¬(k = 0 ∨ m = 0) := by omega
  unfold down_sample_2d
  simp only [e1, e2, e3, e4]
  rw [if_neg hc1, if_neg hc2, if_pos ⟨by rw [hh]; ring, by rw [hw]; ring⟩]

/-- Witness for claim C10 on a concrete divisible 2 by 2 array at factor 2:
the first conjunct of the theorem applies and yields the block average. -/
theorem c10_witness :
    (1 : ℕ) ≤ 2 ∧
      down_sample_2d ⟨2, 2, fun i j => F.fin ((i : ℚ) + (j : ℚ))⟩ 2 =
        some ⟨1, 1, fun i j =>
          (Fsum ((List.range 2).flatMap (fun a => (List.range 2).map (fun b =>
            (⟨2, 2, fun i j => F.fin ((i : ℚ) + (j : ℚ))⟩ : Img).data
              (i * 2 + a) (j * 2 + b))))).div
            (F.fin ((2 : ℚ) * (2 : ℚ)))⟩ :=
  ⟨by omega, c10_down_sample_policy.1 ⟨2, 2, fun i j => F.fin ((i : ℚ) + (j : ℚ))⟩
    2 1 1 (by omega) (by decide) (by decide) (by omega) (by omega)⟩

/-! ## Claim C6: the nan-aware combination statistics -/

theorem nanmean_def (l : List F) :
    nanmean l =
      if (l.filter (fun x => !x.isnan)).length = 0 then F.nan
      else ((l.filter (fun x => !x.isnan)).foldl F.add (F.fin 0)).div
        (F.fin (((l.filter (fun x => !x.isnan)).length : ℚ))) := rfl

theorem nanmedian_def (l : List F) :
    nanmedian l =
      if (List.insertionSort FOrd (l.filter (fun x => !x.isnan))).length = 0 then
        F.nan
      else if (List.insertionSort FOrd (l.filter (fun x => !x.isnan))).length % 2
          = 1 then
        (List.insertionSort FOrd (l.filter (fun x => !x.isnan))).getD
          ((List.insertionSort FOrd (l.filter (fun x => !x.isnan))).length / 2)
          F.nan
      else
        (((List.insertionSort FOrd (l.filter (fun x => !x.isnan))).getD
            ((List.insertionSort FOrd (l.filter (fun x => !x.isnan))).length / 2 - 1)
            F.nan).add
          ((List.insertionSort FOrd (l.filter (fun x => !x.isnan))).getD
            ((List.insertionSort FOrd (l.filter (fun x => !x.isnan))).length / 2)
            F.nan)).div (F.fin 2) := rfl

theorem eq_fin_of_not_nan_not_inf (x : F) (h1 : x.isnan = false)
    (h2 : x.isinf = false) : ∃ q : ℚ, x = F.fin q := by
  cases x with
  | nan => simp [F.isnan] at h1
  | inf s => simp [F.isinf] at h2
  | fin a => exact ⟨a, rfl⟩

theorem foldl_add_fin (l : List F) (hl : ∀ x ∈ l, ∃ q : ℚ, x = F.fin q) :
    ∀ c : ℚ, ∃ q : ℚ, l.foldl F.add (F.fin c) = F.fin q := by
  induction l with
  | nil => intro c; exact ⟨c, rfl⟩
  | cons x t ih =>
      intro c
      obtain ⟨a, rfl⟩ := hl x (by simp)
      rw [List.foldl_cons, F.fin_add_fin]
      exact ih (fun y hy => hl y (by simp [hy])) (c + a)

theorem foldl_nansum_fin (l : List F) (hl : ∀ x ∈ l, x.isinf = false) :
    ∀ c : ℚ, ∃ q : ℚ,
      l.foldl (fun acc x => acc.add x.nanToZero) (F.fin c) = F.fin q := by
  induction l with
  | nil => intro c; exact ⟨c, rfl⟩
  | cons x t ih =>
      intro c
      have hx := hl x (by simp)
      have hnz : ∃ a : ℚ, x.nanToZero = F.fin a := by
        cases x with
        | nan => exact ⟨0, rfl⟩
        | inf s => simp [F.isinf] at hx
        | fin a => exact ⟨a, rfl⟩
      obtain ⟨a, ha⟩ := hnz
      rw [List.foldl_cons, ha, F.fin_add_fin]
      exact ih (fun y hy => hl y (by simp [hy])) (c + a)

theorem nansum_fin (l : List F) (hl : ∀ x ∈ l, x.isinf = false) :
    ∃ q : ℚ, nansum l = F.fin q :=
  foldl_nansum_fin l hl 0

theorem foldl_max_mem (xs : List F) (x : F) :
    xs.foldl (fun a b => if a.le b then b else a) x ∈ x :: xs := by
  induction xs generalizing x with
  | nil => simp
  | cons y t ih =>
      rw [List.foldl_cons]
      have H := ih (if x.le y then y else x)
      rcases List.mem_cons.mp H with h | h
      · rw [h]
        split
        · simp
        · simp
      · simp [h]

theorem fin_div_fin_ne_zero (a b : ℚ) (hb : b ≠ 0) :
    (F.fin a).div (F.fin b) = F.fin (a / b) := by
  show (if b = 0 then _ else F.fin (a / b)) = F.fin (a / b)
  rw [if_neg hb]

/-- Claim C6: over pixel stacks whose entries are finite numbers or
not-a-number (the domain the claim speaks about: valid numbers versus
not-a-number), each of np.nanmean, np.nanmedian, np.nansum and np.nanmax
produces a non-not-a-number value as soon as one entry is valid, and
produces not-a-number only when every entry is not-a-number.  np.nansum in
fact never produces not-a-number (the empty sum is zero), which satisfies
the claim vacuously in its second half. -/
theorem c6_nan_aware_statistics :
    ∀ l : List F, (∀ x ∈ l, x.isinf = false) →
      (((∃ x ∈ l, x.isnan = false) →
          (nanmean l).isnan = false ∧ (nanmedian l).isnan = false ∧
          (nansum l).isnan = false ∧ (nanmax l).isnan = false) ∧
       ((nanmean l).isnan = true → ∀ x ∈ l, x.isnan = true) ∧
       ((nanmedian l).isnan = true → ∀ x ∈ l, x.isnan = true) ∧
       ((nansum l).isnan = true → ∀ x ∈ l, x.isnan = true) ∧
       ((nanmax l).isnan = true → ∀ x ∈ l, x.isnan = true)) := by
  intro l hl
  have hvfin : ∀ x ∈ l.filter (fun x => !x.isnan), ∃ q : ℚ, x = F.fin q := by
    intro x hx
    rw [List.mem_filter, Bool.not_eq_true'] at hx
    exact eq_fin_of_not_nan_not_inf x hx.2 (hl x hx.1)
  have hne : (∃ x ∈ l, x.isnan = false) →
      l.filter (fun x => !x.isnan) ≠ [] := by
    rintro ⟨x, hx, hnan⟩ hnil
    have := List.filter_eq_nil_iff.mp hnil x hx
    rw [Bool.not_eq_true', hnan] at this
    exact this rfl
  have hallnan : l.filter (fun x => !x.isnan) = [] → ∀ x ∈ l, x.isnan = true := by
    intro hnil x hx
    have := List.filter_eq_nil_iff.mp hnil x hx
    rwa [Bool.not_eq_true', Bool.not_eq_false] at this
  -- the sorted valid entries used by nanmedian
  have hsortfin : ∀ x ∈ List.insertionSort FOrd (l.filter (fun x => !x.isnan)),
      ∃ q : ℚ, x = F.fin q := by
    intro x hx
    exact hvfin x ((List.perm_insertionSort FOrd _).mem_iff.mp hx)
  have hsortlen : (List.insertionSort FOrd (l.filter (fun x => !x.isnan))).length =
      (l.filter (fun x => !x.isnan)).length :=
    (List.perm_insertionSort FOrd _).length_eq
  have hmean : l.filter (fun x => !x.isnan) ≠ [] → (nanmean l).isnan = false := by
    intro hne2
    rw [nanmean_def]
    rw [if_neg (fun h => hne2 (List.length_eq_zero.mp h))]
    obtain ⟨q, hq⟩ := foldl_add_fin _ hvfin 0
    rw [hq, fin_div_fin_ne_zero _ _ (by
      have : 0 < (l.filter (fun x => !x.isnan)).length :=
        List.length_pos.mpr hne2
      positivity)]
    rfl
  have hmedian : l.filter (fun x => !x.isnan) ≠ [] → (nanmedian l).isnan = false := by
    intro hne2
    have hpos : 0 < (l.filter (fun x => !x.isnan)).length :=
      List.length_pos.mpr hne2
    rw [nanmedian_def, hsortlen, if_neg (by omega)]
    split
    · have hlt : (l.filter (fun x => !x.isnan)).length / 2 <
          (List.insertionSort FOrd (l.filter (fun x => !x.isnan))).length := by
        rw [hsortlen]
        omega
      rw [List.getD_eq_getElem _ _ hlt]
      obtain ⟨q, hq⟩ := hsortfin _ (List.getElem_mem hlt)
      rw [hq]
      rfl
    · have h2 : 2 ≤ (l.filter (fun x => !x.isnan)).length := by omega
      have hlt1 : (l.filter (fun x => !x.isnan)).length / 2 - 1 <
          (List.insertionSort FOrd (l.filter (fun x => !x.isnan))).length := by
        rw [hsortlen]
        omega
      have hlt2 : (l.filter (fun x => !x.isnan)).length / 2 <
          (List.insertionSort FOrd (l.filter (fun x => !x.isnan))).length := by
        rw [hsortlen]
        omega
      rw [List.getD_eq_getElem _ _ hlt1, List.getD_eq_getElem _ _ hlt2]
      obtain ⟨q1, hq1⟩ := hsortfin _ (List.getElem_mem hlt1)
      obtain ⟨q2, hq2⟩ := hsortfin _ (List.getElem_mem hlt2)
      rw [hq1, hq2, F.fin_add_fin, fin_div_fin_ne_zero _ _ (by norm_num)]
      rfl
  have hmax : l.filter (fun x => !x.isnan) ≠ [] → (nanmax l).isnan = false := by
    intro hne2
    unfold nanmax
    cases hval : l.filter (fun x => !x.isnan) with
    | nil => exact absurd hval hne2
    | cons x xs =>
        have hmem := foldl_max_mem xs x
        rw [← hval] at hmem
        obtain ⟨q, hq⟩ := hvfin _ hmem
        show (xs.foldl (fun a b => if a.le b then b else a) x).isnan = false
        rw [hq]
        rfl
  obtain ⟨qs, hqs⟩ := nansum_fin l hl
  refine ⟨?_, ?_, ?_, ?_, ?_⟩
  · intro hex
    have hne2 := hne hex
    exact ⟨hmean hne2, hmedian hne2, by rw [hqs]; rfl, hmax hne2⟩
  · intro hnan
    by_cases hnil : l.filter (fun x => !x.isnan) = []
    · exact hallnan hnil
    · rw [hmean hnil] at hnan
      exact absurd hnan (by simp)
  · intro hnan
    by_cases hnil : l.filter (fun x => !x.isnan) = []
    · exact hallnan hnil
    · rw [hmedian hnil] at hnan
      exact absurd hnan (by simp)
  · intro hnan
    rw [hqs] at hnan
    exact absurd hnan (by simp [F.isnan])
  · intro hnan
    by_cases hnil : l.filter (fun x => !x.isnan) = []
    · exact hallnan hnil
    · rw [hmax hnil] at hnan
      exact absurd hnan (by simp)

/-- Witness for claim C6 on the concrete stack (nan, 2): one valid entry,
so all four statistics produce a non-not-a-number value. -/
theorem c6_witness :
    (∀ x ∈ [F.nan, F.fin 2], x.isinf = false) ∧
      ((nanmean [F.nan, F.fin 2]).isnan = false ∧
       (nanmedian [F.nan, F.fin 2]).isnan = false ∧
       (nansum [F.nan, F.fin 2]).isnan = false ∧
       (nanmax [F.nan, F.fin 2]).isnan = false) :=
  ⟨by decide, (c6_nan_aware_statistics [F.nan, F.fin 2] (by decide)).1 (by decide)⟩

/-! ## Order facts for the numpy sort comparator -/

theorem sortLe_trans (x y z : F) (hxy : F.sortLe x y = true)
    (hyz : F.sortLe y z = true) : F.sortLe x z = true := by
  cases x <;> cases y <;> cases z <;>
    simp_all [F.sortLe, F.le, F.isnan]
  all_goals first
    | (rename_i s t u; cases s <;> cases t <;> cases u <;> simp_all)
    | (rename_i s t; cases s <;> cases t <;> simp_all)
    | (rename_i s; cases s <;> simp_all)
    | linarith

theorem sortLe_total (x y : F) : F.sortLe x y = true ∨ F.sortLe y x = true := by
  cases x <;> cases y <;> simp_all [F.sortLe, F.le, F.isnan]
  all_goals first
    | (rename_i s t; cases s <;> cases t <;> simp_all)
    | (rename_i s; cases s <;> simp_all)
    | exact le_total _ _

theorem sortLe_antisymm (x y : F) (h1 : F.sortLe x y = true)
    (h2 : F.sortLe y x = true) : x = y := by
  cases x with
  | nan =>
      cases y <;> simp_all [F.sortLe, F.isnan]
  | inf s =>
      cases y with
      | nan => simp_all [F.sortLe, F.isnan]
      | inf t =>
          simp_all [F.sortLe, F.le, F.isnan]
          cases s <;> cases t <;> simp_all
      | fin b =>
          simp_all [F.sortLe, F.le, F.isnan]
  | fin a =>
      cases y with
      | nan => simp_all [F.sortLe, F.isnan]
      | inf t =>
          simp_all [F.sortLe, F.le, F.isnan]
      | fin b =>
          have hab : a ≤ b := by simp_all [F.sortLe, F.le, F.isnan]
          have hba : b ≤ a := by simp_all [F.sortLe, F.le, F.isnan]
          rw [le_antisymm hab hba]

instance : IsTrans F FOrd := ⟨sortLe_trans⟩
instance : IsTotal F FOrd := ⟨sortLe_total⟩
instance : IsAntisymm F FOrd := ⟨sortLe_antisymm⟩
instance : IsTrans (F × F) pairOrd := ⟨fun _ _ _ h1 h2 => sortLe_trans _ _ _ h1 h2⟩
instance : IsTotal (F × F) pairOrd := ⟨fun p q => sortLe_total p.1 q.1⟩

/-- The values of the sorted pairs are the sorted values: a stable sort of
the pairs by value, projected to values, is a sort of the values. -/
theorem sortedValues_eq_sortedStack (values ws : List F)
    (hlen : values.length ≤ ws.length) :
    sortedValues values ws = sortedStack values := by
  unfold sortedValues sortedStack
  apply List.eq_of_perm_of_sorted (r := FOrd)
  · have h1 : List.Perm ((sortedPairs values ws).map Prod.fst)
        ((values.zip ws).map Prod.fst) :=
      (List.perm_insertionSort pairOrd _).map Prod.fst
    have h2 : (values.zip ws).map Prod.fst = values := List.map_fst_zip _ _ hlen
    have h3 : List.Perm (List.insertionSort FOrd values) values :=
      List.perm_insertionSort FOrd values
    exact (h2 ▸ h1).trans h3.symm
  · exact List.pairwise_map.mpr (List.sorted_insertionSort pairOrd _)
  · exact List.sorted_insertionSort FOrd values

/-! ## Cumulative sum and selection helpers -/

/-- Running sums of a rational list from an accumulator. -/
def cumFrom (c : ℚ) : List ℚ → List ℚ
  | [] => []
  | q :: t => (c + q) :: cumFrom (c + q) t

theorem length_cumFrom (c : ℚ) (qs : List ℚ) : (cumFrom c qs).length = qs.length := by
  induction qs generalizing c with
  | nil => rfl
  | cons q t ih => simp [cumFrom, ih]

theorem nancumsumFrom_map_fin (c : ℚ) (qs : List ℚ) :
    nancumsumFrom (F.fin c) (qs.map F.fin) = (cumFrom c qs).map F.fin := by
  induction qs generalizing c with
  | nil => rfl
  | cons q t ih =>
      rw [List.map_cons]
      show (F.fin c).add (F.fin q).nanToZero ::
          nancumsumFrom ((F.fin c).add (F.fin q).nanToZero) (t.map F.fin) = _
      have hz : (F.fin q).nanToZero = F.fin q := rfl
      rw [hz, F.fin_add_fin, ih]
      rfl

theorem length_nancumsumFrom (acc : F) (l : List F) :
    (nancumsumFrom acc l).length = l.length := by
  induction l generalizing acc with
  | nil => rfl
  | cons x t ih =>
      show (nancumsumFrom (acc.add x.nanToZero) t).length + 1 = t.length + 1
      rw [ih]

theorem cumFrom_getD (c : ℚ) (qs : List ℚ) (i : ℕ) (hi : i < qs.length) :
    (cumFrom c qs).getD i 0 = c + ∑ j ∈ Finset.range (i + 1), qs.getD j 0 := by
  induction qs generalizing c i with
  | nil => simp at hi
  | cons q t ih =>
      cases i with
      | zero =>
          show c + q = c + ∑ j ∈ Finset.range 1, (q :: t).getD j 0
          rw [Finset.sum_range_one]
          rfl
      | succ i =>
          have hi2 : i < t.length := by simpa using hi
          have hsh : ∀ j ∈ Finset.range (i + 1),
              ((q :: t) : List ℚ).getD (j + 1) 0 = t.getD j 0 := fun j _ => rfl
          show (cumFrom (c + q) t).getD i 0 = _
          rw [ih (c + q) i hi2]
          conv_rhs => rw [Finset.sum_range_succ']
          rw [Finset.sum_congr rfl hsh]
          have h0 : ((q :: t) : List ℚ).getD 0 0 = q := rfl
          rw [h0]
          ring

theorem nansum_foldl_map_fin (qs : List ℚ) : ∀ c : ℚ,
    (qs.map F.fin).foldl (fun acc x => acc.add x.nanToZero) (F.fin c) =
      F.fin (c + qs.sum) := by
  induction qs with
  | nil => intro c; show F.fin c = F.fin (c + ([] : List ℚ).sum); norm_num
  | cons q t ih =>
      intro c
      rw [List.map_cons, List.foldl_cons]
      have hz : (F.fin c).add (F.fin q).nanToZero = F.fin (c + q) := rfl
      rw [hz, ih (c + q)]
      rw [List.sum_cons]
      ring_nf

theorem nansum_map_fin (qs : List ℚ) : nansum (qs.map F.fin) = F.fin qs.sum := by
  unfold nansum
  rw [nansum_foldl_map_fin qs 0]
  norm_num

theorem list_sum_eq_getD_sum (qs : List ℚ) :
    qs.sum = ∑ j ∈ Finset.range qs.length, qs.getD j 0 := by
  induction qs with
  | nil => simp
  | cons q t ih =>
      have hsh : ∀ j ∈ Finset.range t.length,
          ((q :: t) : List ℚ).getD (j + 1) 0 = t.getD j 0 := fun j _ => rfl
      rw [List.sum_cons, ih, List.length_cons]
      conv_rhs => rw [Finset.sum_range_succ']
      rw [Finset.sum_congr rfl hsh]
      have h0 : ((q :: t) : List ℚ).getD 0 0 = q := rfl
      rw [h0]
      ring

theorem findIdx_map_general {α β : Type} (f : α → β) (p : β → Bool) (l : List α) :
    (l.map f).findIdx p = l.findIdx (fun a => p (f a)) := by
  induction l with
  | nil => rfl
  | cons a t ih => rw [List.map_cons, List.findIdx_cons, List.findIdx_cons, ih]

theorem findIdx_congr {α : Type} (p q : α → Bool) (l : List α)
    (h : ∀ a ∈ l, p a = q a) : l.findIdx p = l.findIdx q := by
  induction l with
  | nil => rfl
  | cons a t ih =>
      rw [List.findIdx_cons, List.findIdx_cons, h a (by simp),
        ih (fun x hx => h x (by simp [hx]))]

theorem not_decide_le (a q : ℚ) : (!decide (a ≤ q)) = decide (q < a) := by
  by_cases h : a ≤ q
  · simp [h, not_lt.mpr h]
  · simp [h, not_le.mp h]

theorem findIdx_range_ge (n t : ℕ) (h : t < n) :
    (List.range n).findIdx (fun i => decide (t ≤ i)) = t := by
  induction t generalizing n with
  | zero =>
      cases n with
      | zero => omega
      | succ m =>
          rw [List.range_succ_eq_map, List.findIdx_cons]
          norm_num
  | succ t ih =>
      cases n with
      | zero => omega
      | succ m =>
          rw [List.range_succ_eq_map, List.findIdx_cons]
          have hp : (decide (t + 1 ≤ 0)) = false := by norm_num
          rw [hp]
          show ((List.range m).map Nat.succ).findIdx (fun i => decide (t + 1 ≤ i)) + 1
              = t + 1
          rw [findIdx_map_general]
          have hc : ∀ i ∈ List.range m,
              (decide (t + 1 ≤ Nat.succ i)) = (decide (t ≤ i)) := by
            intro i _
            by_cases hle : t ≤ i
            · rw [decide_eq_true hle, decide_eq_true (by omega)]
            · rw [decide_eq_false hle, decide_eq_false (by omega)]
          rw [findIdx_congr _ _ _ hc, ih m (by omega)]

theorem getD_replicate_of_lt {α : Type} (n j : ℕ) (a d : α) (hj : j < n) :
    (List.replicate n a).getD j d = a := by
  have hlen : j < (List.replicate n a).length := by
    rw [List.length_replicate]
    exact hj
  rw [List.getD_eq_getElem _ _ hlen, List.getElem_replicate]

/-! ## Claim C1: the weighted quantile selection rule -/

/-- The sorted weights of one pixel column as exact rationals, with
infinite weights zeroed: the rational content of sortedWeights on columns
whose weights are free of not-a-number. -/
def specWeights (values sample_weight : List F) : List ℚ :=
  ((sortedPairs values sample_weight).map Prod.snd).map
    (fun w => if w.isinf then 0 else w.toQ)

/-- The quantity claim C1 describes at sorted index i: the cumulative
weighted sum up to and including i, minus half the local weight, divided by
the total weight. -/
def specWQN (values sample_weight : List F) (i : ℕ) : ℚ :=
  ((∑ j ∈ Finset.range (i + 1), (specWeights values sample_weight).getD j 0) -
      (specWeights values sample_weight).getD i 0 / 2) /
    (specWeights values sample_weight).sum

/-- The selection rule exactly as claim C1 states it: the first sorted
index whose normalized cumulative weight is at least the quantile (the list
length when no index qualifies). -/
def specSelectGE (values : List F) (quantile : ℚ) (sample_weight : List F) : ℕ :=
  (List.range (sortedPairs values sample_weight).length).findIdx
    (fun i => decide (quantile ≤ specWQN values sample_weight i))

/-- The selection rule the code implements: the first sorted index whose
normalized cumulative weight strictly exceeds the quantile, and index 0
when no index exceeds it. -/
def specSelectGT (values : List F) (quantile : ℚ) (sample_weight : List F) : ℕ :=
  if (List.range (sortedPairs values sample_weight).length).findIdx
      (fun i => decide (quantile < specWQN values sample_weight i)) <
      (sortedPairs values sample_weight).length
  then (List.range (sortedPairs values sample_weight).length).findIdx
      (fun i => decide (quantile < specWQN values sample_weight i))
  else 0

theorem length_sortedPairs (values ws : List F) :
    (sortedPairs values ws).length = (values.zip ws).length :=
  (List.perm_insertionSort pairOrd _).length_eq

theorem length_sortedWeights (values ws : List F) :
    (sortedWeights values ws).length = (sortedPairs values ws).length := by
  unfold sortedWeights
  rw [List.length_map, List.length_map]

theorem length_specWeights (values ws : List F) :
    (specWeights values ws).length = (sortedPairs values ws).length := by
  unfold specWeights
  rw [List.length_map, List.length_map]

theorem length_wqList (values ws : List F) :
    (wqList values ws).length = (sortedPairs values ws).length := by
  unfold wqList nancumsum
  rw [List.length_zipWith, length_nancumsumFrom, length_sortedWeights]
  exact min_self _

theorem length_wqnList (values ws : List F) :
    (wqnList values ws).length = (sortedPairs values ws).length := by
  unfold wqnList
  rw [List.length_map, length_wqList]

theorem length_maskList (values ws : List F) (q : ℚ) :
    (maskList values q ws).length = (sortedPairs values ws).length := by
  unfold maskList
  rw [List.length_map, length_wqnList]

theorem sortedWeights_eq_map_fin (values sample_weight : List F)
    (hw : ∀ w ∈ sample_weight, w.isnan = false) :
    sortedWeights values sample_weight =
      (specWeights values sample_weight).map F.fin := by
  unfold sortedWeights specWeights
  rw [List.map_map, List.map_map, List.map_map]
  apply List.map_congr_left
  intro p hp
  have hpz : p ∈ values.zip sample_weight :=
    (List.perm_insertionSort pairOrd _).mem_iff.mp hp
  have hpz2 : (p.1, p.2) ∈ values.zip sample_weight := by rwa [Prod.mk.eta]
  have hsnd : p.2 ∈ sample_weight := (List.of_mem_zip hpz2).2
  have hn := hw p.2 hsnd
  show zeroInf p.2 = F.fin (if p.2.isinf then 0 else p.2.toQ)
  cases h2 : p.2 with
  | nan => rw [h2] at hn; simp [F.isnan] at hn
  | inf s => simp [zeroInf, F.isinf, F.toQ]
  | fin a => simp [zeroInf, F.isinf, F.toQ]


theorem ext_getD {α : Type} (l1 l2 : List α) (d : α)
    (hlen : l1.length = l2.length)
    (h : ∀ n, n < l1.length → l1.getD n d = l2.getD n d) : l1 = l2 := by
  apply List.ext_getElem hlen
  intro n h1 h2
  have hx := h n h1
  rwa [List.getD_eq_getElem _ _ h1, List.getD_eq_getElem _ _ h2] at hx

theorem getD_map_lt {α β : Type} (f : α → β) (l : List α) (n : ℕ)
    (h : n < l.length) (d : β) (d2 : α) :
    (l.map f).getD n d = f (l.getD n d2) := by
  have h2 : n < (l.map f).length := by rw [List.length_map]; exact h
  rw [List.getD_eq_getElem _ _ h2, List.getElem_map, List.getD_eq_getElem _ _ h]

theorem getD_zipWith_lt {α β γ : Type} (f : α → β → γ) (l1 : List α)
    (l2 : List β) (n : ℕ) (h1 : n < l1.length) (h2 : n < l2.length) (d : γ)
    (d1 : α) (d2 : β) :
    (List.zipWith f l1 l2).getD n d = f (l1.getD n d1) (l2.getD n d2) := by
  have hz : n < (List.zipWith f l1 l2).length := by
    rw [List.length_zipWith]
    exact lt_min h1 h2
  rw [List.getD_eq_getElem _ _ hz, List.getElem_zipWith,
    List.getD_eq_getElem _ _ h1, List.getD_eq_getElem _ _ h2]

theorem getD_range_lt (k n : ℕ) (h : n < k) (d : ℕ) :
    (List.range k).getD n d = n := by
  have h2 : n < (List.range k).length := by rw [List.length_range]; exact h
  rw [List.getD_eq_getElem _ _ h2, List.getElem_range]

/-- The boolean comparison mask of the code, expressed through the rational
normalized cumulative weights of the claim, for a pixel column with no
not-a-number weight and a nonzero total weight. -/
theorem maskList_eq_range (values sample_weight : List F) (quantile : ℚ)
    (hw : ∀ w ∈ sample_weight, w.isnan = false)
    (ht : (specWeights values sample_weight).sum ≠ 0) :
    maskList values quantile sample_weight =
      (List.range (sortedPairs values sample_weight).length).map
        (fun i => decide (specWQN values sample_weight i ≤ quantile)) := by
  have hsw := sortedWeights_eq_map_fin values sample_weight hw
  apply ext_getD _ _ false
  · rw [length_maskList, List.length_map, List.length_range]
  · intro n hn
    rw [length_maskList] at hn
    have hnspec : n < (specWeights values sample_weight).length := by
      rw [length_specWeights]; exact hn
    have hnw : n < (sortedWeights values sample_weight).length := by
      rw [length_sortedWeights]; exact hn
    have hnwqn : n < (wqnList values sample_weight).length := by
      rw [length_wqnList]; exact hn
    have hnwq : n < (wqList values sample_weight).length := by
      rw [length_wqList]; exact hn
    have hncum : n < (nancumsum (sortedWeights values sample_weight)).length := by
      unfold nancumsum
      rw [length_nancumsumFrom]
      exact hnw
    unfold maskList
    rw [getD_map_lt _ _ n hnwqn false F.nan]
    unfold wqnList
    rw [getD_map_lt _ _ n hnwq F.nan F.nan]
    unfold wqList
    rw [getD_zipWith_lt _ _ _ n hncum hnw F.nan F.nan F.nan]
    have hW : (sortedWeights values sample_weight).getD n F.nan =
        F.fin ((specWeights values sample_weight).getD n 0) := by
      rw [hsw]
      exact getD_map_lt _ _ n hnspec F.nan 0
    have hC : (nancumsum (sortedWeights values sample_weight)).getD n F.nan =
        F.fin (0 + ∑ j ∈ Finset.range (n + 1),
          (specWeights values sample_weight).getD j 0) := by
      unfold nancumsum
      rw [hsw, nancumsumFrom_map_fin]
      have hcl : n < (cumFrom 0 (specWeights values sample_weight)).length := by
        rw [length_cumFrom]
        exact hnspec
      rw [getD_map_lt _ _ n hcl F.nan 0, cumFrom_getD _ _ n hnspec]
    rw [hW, hC, hsw, nansum_map_fin]
    have e1 : (F.fin ((1 : ℚ)/2)).mul
        (F.fin ((specWeights values sample_weight).getD n 0)) =
        F.fin ((1/2) * (specWeights values sample_weight).getD n 0) := rfl
    rw [e1]
    have e2 : (F.fin (0 + ∑ j ∈ Finset.range (n + 1),
          (specWeights values sample_weight).getD j 0)).sub
        (F.fin ((1/2) * (specWeights values sample_weight).getD n 0)) =
        F.fin ((0 + ∑ j ∈ Finset.range (n + 1),
          (specWeights values sample_weight).getD j 0) -
          (1/2) * (specWeights values sample_weight).getD n 0) := rfl
    rw [e2, fin_div_fin_ne_zero _ _ ht]
    have e3 : ∀ A : ℚ, (F.fin A).le (F.fin quantile) = decide (A ≤ quantile) :=
      fun A => rfl
    rw [e3]
    have hrhs : ((List.range (sortedPairs values sample_weight).length).map
        (fun i => decide (specWQN values sample_weight i ≤ quantile))).getD n false =
        decide (specWQN values sample_weight n ≤ quantile) := by
      rw [getD_map_lt _ _ n (by rw [List.length_range]; exact hn) false 0,
        getD_range_lt _ _ hn]
    rw [hrhs]
    have harith : ((0 + ∑ j ∈ Finset.range (n + 1),
          (specWeights values sample_weight).getD j 0) -
          (1/2) * (specWeights values sample_weight).getD n 0) /
          (specWeights values sample_weight).sum =
        specWQN values sample_weight n := by
      unfold specWQN
      ring_nf
    rw [harith]


/-- Claim C1 counterexample at values (1, 2), weights (1, 1), quantile 1/4:
the normalized cumulative weights are (1/4, 3/4), so the first index whose
normalized cumulative weight is at least 1/4 is index 0 and the claim
predicts the value 1; the code computes np.argmin((1/4, 3/4) <= 1/4), whose
first false entry is at index 1, and returns the value 2. -/
theorem c1_counterexample :
    weighted_quantile [F.fin 1, F.fin 2] (1/4) [F.fin 1, F.fin 1] = F.fin 2 ∧
    specSelectGE [F.fin 1, F.fin 2] (1/4) [F.fin 1, F.fin 1] = 0 ∧
    (sortedValues [F.fin 1, F.fin 2] [F.fin 1, F.fin 1]).getD 0 F.nan = F.fin 1 ∧
    F.fin 2 ≠ F.fin 1 := by
  refine ⟨by decide, by decide, by decide, by decide⟩

theorem c1_amended (values sample_weight : List F) (quantile : ℚ)
    (hlen : values.length = sample_weight.length)
    (hw : ∀ w ∈ sample_weight, w.isnan = false)
    (ht : (specWeights values sample_weight).sum ≠ 0) :
    weighted_quantile values quantile sample_weight =
      (sortedValues values sample_weight).getD
        (specSelectGT values quantile sample_weight) F.nan := by
  unfold weighted_quantile
  congr 1
  unfold argminBool specSelectGT
  rw [maskList_eq_range values sample_weight quantile hw ht,
    findIdx_map_general, List.length_map, List.length_range]
  rw [findIdx_congr _
    (fun i => decide (quantile < specWQN values sample_weight i)) _
    (fun i _ => not_decide_le _ _)]

theorem c1_witness :
    ([F.fin 1, F.fin 2] : List F).length = ([F.fin 1, F.fin 1] : List F).length ∧
    (∀ w ∈ ([F.fin 1, F.fin 1] : List F), w.isnan = false) ∧
    (specWeights [F.fin 1, F.fin 2] [F.fin 1, F.fin 1]).sum ≠ 0 ∧
    weighted_quantile [F.fin 1, F.fin 2] (1/4) [F.fin 1, F.fin 1] =
      (sortedValues [F.fin 1, F.fin 2] [F.fin 1, F.fin 1]).getD
        (specSelectGT [F.fin 1, F.fin 2] (1/4) [F.fin 1, F.fin 1]) F.nan :=
  ⟨by decide, by decide, by decide,
    c1_amended [F.fin 1, F.fin 2] [F.fin 1, F.fin 1] (1/4)
      (by decide) (by decide) (by decide)⟩



theorem mem_zipWith_exists {α β γ : Type} (f : α → β → γ) (l1 : List α)
    (l2 : List β) (x : γ) (hx : x ∈ List.zipWith f l1 l2) :
    ∃ a ∈ l1, ∃ b ∈ l2, x = f a b := by
  induction l1 generalizing l2 with
  | nil => simp at hx
  | cons a t ih =>
      cases l2 with
      | nil => simp at hx
      | cons b t2 =>
          rw [List.zipWith_cons_cons] at hx
          rcases List.mem_cons.mp hx with h | h
          · exact ⟨a, by simp, b, by simp, h⟩
          · rcases ih t2 h with ⟨a2, ha2, b2, hb2, hx2⟩
            exact ⟨a2, by simp [ha2], b2, by simp [hb2], hx2⟩

theorem sortedWeights_zeroOrNan (values sample_weight : List F)
    (hw : ∀ w ∈ sample_weight, w = F.fin 0 ∨ w = F.nan) :
    ∀ x ∈ sortedWeights values sample_weight, x = F.fin 0 ∨ x = F.nan := by
  intro x hx
  unfold sortedWeights at hx
  rcases List.mem_map.mp hx with ⟨w2, hw2, rfl⟩
  rcases List.mem_map.mp hw2 with ⟨p, hp, rfl⟩
  have hpz : p ∈ values.zip sample_weight :=
    (List.perm_insertionSort pairOrd _).mem_iff.mp hp
  have hpz2 : (p.1, p.2) ∈ values.zip sample_weight := by rwa [Prod.mk.eta]
  have hsnd := (List.of_mem_zip hpz2).2
  rcases hw p.2 hsnd with h | h
  · left
    rw [h]
    rfl
  · right
    rw [h]
    rfl

theorem nancumsumFrom_zeros (l : List F)
    (hl : ∀ x ∈ l, x = F.fin 0 ∨ x = F.nan) :
    nancumsumFrom (F.fin 0) l = List.replicate l.length (F.fin 0) := by
  induction l with
  | nil => rfl
  | cons x t ih =>
      have hstep : (F.fin (0 : ℚ)).add x.nanToZero = F.fin 0 := by
        rcases hl x (by simp) with h | h <;> rw [h] <;>
          show F.fin (0 + 0) = F.fin 0 <;> norm_num
      show (F.fin 0).add x.nanToZero ::
          nancumsumFrom ((F.fin 0).add x.nanToZero) t = _
      rw [hstep, List.length_cons, List.replicate_succ,
        ih (fun y hy => hl y (by simp [hy]))]

theorem nansum_zeros (l : List F)
    (hl : ∀ x ∈ l, x = F.fin 0 ∨ x = F.nan) : nansum l = F.fin 0 := by
  unfold nansum
  induction l with
  | nil => rfl
  | cons x t ih =>
      rw [List.foldl_cons]
      have hstep : (F.fin (0 : ℚ)).add x.nanToZero = F.fin 0 := by
        rcases hl x (by simp) with h | h <;> rw [h] <;>
          show F.fin (0 + 0) = F.fin 0 <;> norm_num
      rw [hstep, ih (fun y hy => hl y (by simp [hy]))]

theorem maskList_all_false (values sample_weight : List F) (quantile : ℚ)
    (hw : ∀ w ∈ sample_weight, w = F.fin 0 ∨ w = F.nan) :
    ∀ b ∈ maskList values quantile sample_weight, b = false := by
  intro b hb
  unfold maskList at hb
  rcases List.mem_map.mp hb with ⟨x, hxmem, rfl⟩
  unfold wqnList at hxmem
  rcases List.mem_map.mp hxmem with ⟨y, hymem, rfl⟩
  unfold wqList at hymem
  rcases mem_zipWith_exists _ _ _ _ hymem with ⟨cs, hcs, w, hwmem, rfl⟩
  have hwz := sortedWeights_zeroOrNan values sample_weight hw
  have hsum0 : nansum (sortedWeights values sample_weight) = F.fin 0 :=
    nansum_zeros _ hwz
  have hcse : cs = F.fin 0 := by
    unfold nancumsum at hcs
    rw [nancumsumFrom_zeros _ hwz] at hcs
    exact List.eq_of_mem_replicate hcs
  rw [hsum0, hcse]
  rcases hwz w hwmem with h | h <;> rw [h]
  · have estep : ((F.fin (0 : ℚ)).sub ((F.fin ((1 : ℚ)/2)).mul
        (F.fin (0 : ℚ)))).div (F.fin (0 : ℚ)) = F.nan := by decide
    rw [estep]
    rfl
  · have estep : ((F.fin (0 : ℚ)).sub ((F.fin ((1 : ℚ)/2)).mul
        F.nan)).div (F.fin (0 : ℚ)) = F.nan := by decide
    rw [estep]
    rfl

theorem findIdx_all_false (mask : List Bool) (h : ∀ b ∈ mask, b = false) :
    mask.findIdx (fun b => !b) = 0 := by
  cases mask with
  | nil => rfl
  | cons b t =>
      rw [List.findIdx_cons, h b (by simp)]
      rfl

theorem argminBool_all_false (mask : List Bool) (h : ∀ b ∈ mask, b = false) :
    argminBool mask = 0 := by
  unfold argminBool
  rw [findIdx_all_false mask h]
  split <;> rfl

/-- Claim C2 counterexample: at values (1, 2) with both weights zero the
total weight is zero, yet the returned value is 1 (the smallest value), not
not-a-number: all normalized cumulative weights are 0/0, not-a-number, every
comparison with the quantile is false, and np.argmin of an all-false array
is index 0. -/
theorem c2_counterexample :
    nansum (sortedWeights [F.fin 1, F.fin 2] [F.fin 0, F.fin 0]) = F.fin 0 ∧
    weighted_quantile [F.fin 1, F.fin 2] (1/2) [F.fin 0, F.fin 0] = F.fin 1 ∧
    (weighted_quantile [F.fin 1, F.fin 2] (1/2) [F.fin 0, F.fin 0]).isnan
      = false := by
  refine ⟨by decide, by decide, by decide⟩

/-- Claim C2 amended: weighted_quantile is total (the embedding is a total
function, matching the absence of any exception in the numpy pipeline: the
zero division only emits a warning), and at a pixel whose weights are all
zero or not-a-number (hence of zero total weight) it returns the first
element of the sorted value stack, the smallest value, which is
not-a-number only when all the values are.  The empty column is excluded:
np.argmin raises on an empty array. -/
theorem c2_amended (values sample_weight : List F) (quantile : ℚ)
    (hne : values ≠ [])
    (hlen : values.length = sample_weight.length)
    (hw : ∀ w ∈ sample_weight, w = F.fin 0 ∨ w = F.nan) :
    weighted_quantile values quantile sample_weight =
      (sortedStack values).getD 0 F.nan := by
  unfold weighted_quantile
  rw [argminBool_all_false _ (maskList_all_false values sample_weight quantile hw),
    sortedValues_eq_sortedStack values _ (by rw [← hlen])]

/-- Witness for the amended claim C2 on the concrete column with values
(3, 1) and weights (nan, 0): the result is the smallest value 1. -/
theorem c2_witness :
    ([F.fin 3, F.fin 1] : List F) ≠ [] ∧
    ([F.fin 3, F.fin 1] : List F).length = ([F.nan, F.fin 0] : List F).length ∧
    (∀ w ∈ ([F.nan, F.fin 0] : List F), w = F.fin 0 ∨ w = F.nan) ∧
    weighted_quantile [F.fin 3, F.fin 1] (1/2) [F.nan, F.fin 0] =
      (sortedStack [F.fin 3, F.fin 1]).getD 0 F.nan :=
  ⟨by decide, by decide, by decide,
    c2_amended [F.fin 3, F.fin 1] [F.nan, F.fin 0] (1/2)
      (by decide) (by decide) (by decide)⟩


theorem specWeights_replicate (values : List F) (n : ℕ) (w : ℚ)
    (hlen : values.length = n) :
    specWeights values (List.replicate n (F.fin w)) = List.replicate n w := by
  apply List.eq_replicate_iff.mpr
  constructor
  · rw [length_specWeights, length_sortedPairs, List.length_zip,
      List.length_replicate, hlen, min_self]
  · intro b hb
    unfold specWeights at hb
    rcases List.mem_map.mp hb with ⟨w2, hw2, rfl⟩
    rcases List.mem_map.mp hw2 with ⟨p, hp, rfl⟩
    have hpz : p ∈ values.zip (List.replicate n (F.fin w)) :=
      (List.perm_insertionSort pairOrd _).mem_iff.mp hp
    have hpz2 : (p.1, p.2) ∈ values.zip (List.replicate n (F.fin w)) := by
      rwa [Prod.mk.eta]
    have hsnd := (List.of_mem_zip hpz2).2
    have hself : p.2 = F.fin w := (List.mem_replicate.mp hsnd).2
    rw [hself]
    simp [F.isinf, F.toQ]

/-- Claim C4 counterexample at the odd stack (1, 2, 3) with all weights 1
and quantile exactly 1/2: the normalized cumulative weights are
(1/6, 1/2, 5/6), the comparison with 1/2 is (true, true, false), np.argmin
of that array is index 2, and the code returns 3, the element above the
conventional median 2. -/
theorem c4_counterexample :
    weighted_quantile [F.fin 1, F.fin 2, F.fin 3] (1/2)
        [F.fin 1, F.fin 1, F.fin 1] = F.fin 3 ∧
    nanmedian [F.fin 1, F.fin 2, F.fin 3] = F.fin 2 ∧
    F.fin 3 ≠ F.fin 2 := by
  refine ⟨by decide, by decide, by decide⟩

/-- Claim C4 amended: on an odd stack of 2m+1 values (m at least 1) with
all weights equal to the same positive finite w and quantile exactly 1/2,
weighted_quantile returns the element at position m+1 of the sorted stack,
one position above the conventional median at position m.  (For a single
element stack, m = 0, the single element, which is the median, is
returned.) -/
theorem c4_amended (values : List F) (w : ℚ) (m : ℕ) (hm : 1 ≤ m)
    (hlen : values.length = 2 * m + 1) (hw : 0 < w) :
    weighted_quantile values (1/2) (List.replicate (2 * m + 1) (F.fin w)) =
      (sortedStack values).getD (m + 1) F.nan := by
  have hw2 : ∀ w2 ∈ List.replicate (2 * m + 1) (F.fin w), w2.isnan = false := by
    intro w2 hw2m
    rw [(List.mem_replicate.mp hw2m).2]
    rfl
  have hspec := specWeights_replicate values (2 * m + 1) w hlen
  have hsum : (specWeights values (List.replicate (2 * m + 1) (F.fin w))).sum =
      ((2 * m + 1 : ℕ) : ℚ) * w := by
    rw [hspec, List.sum_replicate, nsmul_eq_mul]
  have hnq : (0 : ℚ) < ((2 * m + 1 : ℕ) : ℚ) := by positivity
  have ht : (specWeights values (List.replicate (2 * m + 1) (F.fin w))).sum ≠ 0 := by
    rw [hsum]
    exact ne_of_gt (mul_pos hnq hw)
  unfold weighted_quantile
  rw [sortedValues_eq_sortedStack values _ (by rw [List.length_replicate, hlen])]
  congr 1
  unfold argminBool
  rw [maskList_eq_range values _ (1/2) hw2 ht, findIdx_map_general,
    List.length_map, List.length_range]
  have hlen2 : (sortedPairs values (List.replicate (2 * m + 1) (F.fin w))).length
      = 2 * m + 1 := by
    rw [length_sortedPairs, List.length_zip, List.length_replicate, hlen,
      min_self]
  rw [hlen2]
  have hcongr : ∀ i ∈ List.range (2 * m + 1),
      (!decide (specWQN values (List.replicate (2 * m + 1) (F.fin w)) i ≤ 1/2))
        = decide (m + 1 ≤ i) := by
    intro i hi
    rw [List.mem_range] at hi
    have hwqn : specWQN values (List.replicate (2 * m + 1) (F.fin w)) i =
        (2 * (i : ℚ) + 1) / (2 * ((2 * m + 1 : ℕ) : ℚ)) := by
      unfold specWQN
      rw [hspec]
      have hgd : (List.replicate (2 * m + 1) w).getD i 0 = w :=
        getD_replicate_of_lt _ i w 0 hi
      have hsum2 : ∑ j ∈ Finset.range (i + 1),
          (List.replicate (2 * m + 1) w).getD j 0 = ((i : ℚ) + 1) * w := by
        have hpt : ∀ j ∈ Finset.range (i + 1),
            (List.replicate (2 * m + 1) w).getD j 0 = w := by
          intro j hj
          rw [Finset.mem_range] at hj
          exact getD_replicate_of_lt _ j w 0 (by omega)
        rw [Finset.sum_congr rfl hpt, Finset.sum_const, Finset.card_range,
          nsmul_eq_mul]
        push_cast
        ring
      rw [hgd, hsum2, List.sum_replicate, nsmul_eq_mul]
      rw [div_eq_div_iff (ne_of_gt (mul_pos hnq hw)) (by positivity)]
      ring
    rw [hwqn, not_decide_le]
    apply decide_eq_decide.mpr
    have h2n : (0 : ℚ) < 2 * ((2 * m + 1 : ℕ) : ℚ) := by positivity
    rw [lt_div_iff h2n]
    have hhalf : (1/2 : ℚ) * (2 * ((2 * m + 1 : ℕ) : ℚ)) =
        ((2 * m + 1 : ℕ) : ℚ) := by ring
    rw [hhalf]
    constructor
    · intro h
      have hcast : (2 * m + 1 : ℕ) < 2 * i + 1 := by exact_mod_cast h
      omega
    · intro h
      have hcast : (2 * m + 1 : ℕ) < 2 * i + 1 := by omega
      exact_mod_cast hcast
  rw [findIdx_congr _ _ _ hcongr, findIdx_range_ge _ _ (by omega)]
  rw [if_pos (by omega)]

/-- Witness for the amended claim C4 on the concrete odd stack
(1, 2, 3) with weights all 1: the result is the sorted element at index 2,
namely 3. -/
theorem c4_witness :
    (1 : ℕ) ≤ 1 ∧
    ([F.fin 1, F.fin 2, F.fin 3] : List F).length = 2 * 1 + 1 ∧
    (0 : ℚ) < 1 ∧
    weighted_quantile [F.fin 1, F.fin 2, F.fin 3] (1/2)
        (List.replicate (2 * 1 + 1) (F.fin 1)) =
      (sortedStack [F.fin 1, F.fin 2, F.fin 3]).getD (1 + 1) F.nan :=
  ⟨by omega, by decide, by norm_num,
    c4_amended [F.fin 1, F.fin 2, F.fin 3] 1 1 (by omega) (by decide)
      (by norm_num)⟩

/-! ## The tile fold: each output pixel is written by exactly one tile -/

theorem writeTile_covered (out : ℕ → ℕ → F) (yo yp xo xp : ℕ) (v : ℕ → ℕ → F)
    (r c : ℕ) (h : yo ≤ r ∧ r < yp ∧ xo ≤ c ∧ c < xp) :
    writeTile out yo yp xo xp v r c = v r c := by
  unfold writeTile
  rw [if_pos h]

theorem writeTile_not_covered (out : ℕ → ℕ → F) (yo yp xo xp : ℕ)
    (v : ℕ → ℕ → F) (r c : ℕ) (h : ¬(yo ≤ r ∧ r < yp ∧ xo ≤ c ∧ c < xp)) :
    writeTile out yo yp xo xp v r c = out r c := by
  unfold writeTile
  rw [if_neg h]

/-- Whether the interior of the tile with origin t covers pixel (r, c). -/
def tileCovers (H W S : ℕ) (t : ℕ × ℕ) (r c : ℕ) : Prop :=
  t.1 ≤ r ∧ r < t_hi H S t.1 ∧ t.2 ≤ c ∧ c < t_hi W S t.2

theorem foldWrite_congr (H W S : ℕ) (tv : ℕ → ℕ → ℕ → ℕ → F) (r c : ℕ)
    (L : List (ℕ × ℕ)) : ∀ out1 out2 : ℕ → ℕ → F, out1 r c = out2 r c →
    (L.foldl (fun out t =>
      writeTile out t.1 (t_hi H S t.1) t.2 (t_hi W S t.2) (tv t.1 t.2)) out1) r c =
    (L.foldl (fun out t =>
      writeTile out t.1 (t_hi H S t.1) t.2 (t_hi W S t.2) (tv t.1 t.2)) out2) r c := by
  induction L with
  | nil => intro out1 out2 h; exact h
  | cons t L ih =>
      intro out1 out2 h
      rw [List.foldl_cons, List.foldl_cons]
      apply ih
      unfold writeTile
      split
      · rfl
      · exact h

theorem foldWrite_untouched (H W S : ℕ) (tv : ℕ → ℕ → ℕ → ℕ → F) (r c : ℕ)
    (L : List (ℕ × ℕ)) (hL : ∀ t ∈ L, ¬tileCovers H W S t r c) :
    ∀ out : ℕ → ℕ → F,
    (L.foldl (fun out t =>
      writeTile out t.1 (t_hi H S t.1) t.2 (t_hi W S t.2) (tv t.1 t.2)) out) r c =
      out r c := by
  induction L with
  | nil => intro out; rfl
  | cons t L ih =>
      intro out
      rw [List.foldl_cons]
      rw [ih (fun x hx => hL x (by simp [hx]))]
      exact writeTile_not_covered _ _ _ _ _ _ _ _ (hL t (by simp))

theorem foldWrite_unique (H W S : ℕ) (tv : ℕ → ℕ → ℕ → ℕ → F) (r c : ℕ)
    (L : List (ℕ × ℕ)) (t0 : ℕ × ℕ) (hmem : t0 ∈ L)
    (hcov : tileCovers H W S t0 r c)
    (huniq : ∀ t ∈ L, tileCovers H W S t r c → t = t0) (hnodup : L.Nodup) :
    ∀ out : ℕ → ℕ → F,
    (L.foldl (fun out t =>
      writeTile out t.1 (t_hi H S t.1) t.2 (t_hi W S t.2) (tv t.1 t.2)) out) r c =
      tv t0.1 t0.2 r c := by
  induction L with
  | nil => simp at hmem
  | cons a L ih =>
      intro out
      rw [List.foldl_cons]
      by_cases ha : a = t0
      · subst ha
        have hnotin : a ∉ L := (List.nodup_cons.mp hnodup).1
        have hnone : ∀ t ∈ L, ¬tileCovers H W S t r c := by
          intro t htmem htcov
          have := huniq t (by simp [htmem]) htcov
          subst this
          exact hnotin htmem
        rw [foldWrite_untouched H W S tv r c L hnone]
        exact writeTile_covered _ _ _ _ _ _ _ _ hcov
      · have hmem2 : t0 ∈ L := by
          rcases List.mem_cons.mp hmem with h | h
          · exact absurd h.symm ha
          · exact h
        have hacov : ¬tileCovers H W S a r c := fun hc =>
          ha (huniq a (by simp) hc)
        have ih2 := ih hmem2 (fun t ht => huniq t (by simp [ht]))
          (List.nodup_cons.mp hnodup).2
        rw [ih2 (writeTile out a.1 (t_hi H S a.1) a.2 (t_hi W S a.2) (tv a.1 a.2))]

/-! ## The tile grid -/

theorem mem_arange_iff (n s k : ℕ) :
    k ∈ arange n s ↔ ∃ i, i < (n + s - 1) / s ∧ k = i * s := by
  unfold arange
  constructor
  · intro h
    rcases List.mem_map.mp h with ⟨i, hi, rfl⟩
    exact ⟨i, List.mem_range.mp hi, rfl⟩
  · rintro ⟨i, hi, rfl⟩
    exact List.mem_map.mpr ⟨i, List.mem_range.mpr hi, rfl⟩

theorem nodup_arange (n s : ℕ) (hs : 1 ≤ s) : (arange n s).Nodup := by
  unfold arange
  apply List.Nodup.map
  · intro a b h
    exact Nat.eq_of_mul_eq_mul_right hs h
  · exact List.nodup_range _

theorem nodup_tileGrid (H W S : ℕ) (hs : 1 ≤ S) : (tileGrid H W S).Nodup := by
  have h : tileGrid H W S = (arange H S).product (arange W S) := rfl
  rw [h]
  exact (nodup_arange H S hs).product (nodup_arange W S hs)

/-- The covering tile origin along one axis: the section containing r. -/
theorem arange_covering (n s r : ℕ) (hs : 1 ≤ s) (hr : r < n) :
    (r / s) * s ∈ arange n s ∧ (r / s) * s ≤ r ∧
      r < t_hi n s ((r / s) * s) := by
  have hs0 : 0 < s := hs
  have h1 : (r / s) * s ≤ r := Nat.div_mul_le_self r s
  have h2 : r < (r / s) * s + s := by
    have hd : r / s < r / s + 1 := Nat.lt_succ_self _
    have := (Nat.div_lt_iff_lt_mul hs0).mp hd
    calc r < (r / s + 1) * s := this
    _ = (r / s) * s + s := by ring
  refine ⟨?_, h1, ?_⟩
  · rw [mem_arange_iff]
    refine ⟨r / s, ?_, rfl⟩
    have hn1 : 1 ≤ n := by omega
    have hrle : r ≤ n - 1 := by omega
    have hdivle : r / s ≤ (n - 1) / s := Nat.div_le_div_right hrle
    have hcount : (n + s - 1) / s = (n - 1) / s + 1 := by
      have : n + s - 1 = (n - 1) + s := by omega
      rw [this, Nat.add_div_right _ hs0]
    omega
  · unfold t_hi
    omega

/-- Uniqueness of the covering tile origin along one axis. -/
theorem arange_covering_unique (n s r k : ℕ) (hs : 1 ≤ s) (hk : k ∈ arange n s)
    (h1 : k ≤ r) (h2 : r < t_hi n s k) : k = (r / s) * s := by
  have hs0 : 0 < s := hs
  rcases (mem_arange_iff n s k).mp hk with ⟨i, hi, rfl⟩
  have h3 : r < i * s + s := by
    unfold t_hi at h2
    omega
  have hlow : i ≤ r / s := (Nat.le_div_iff_mul_le hs0).mpr h1
  have hhigh : r / s < i + 1 := by
    apply (Nat.div_lt_iff_lt_mul hs0).mpr
    calc r < i * s + s := h3
    _ = (i + 1) * s := by ring
  have : i = r / s := by omega
  rw [this]

/-! ## Tile-local versus global shifted planes -/

theorem t_lo_le (yo : ℕ) : t_lo yo ≤ yo := Nat.sub_le _ _

theorem t_hi_le_t_hi2 (n S yo : ℕ) : t_hi n S yo ≤ t_hi2 n S yo := by
  unfold t_hi2 t_hi
  omega

theorem t_hi2_le (n S yo : ℕ) : t_hi2 n S yo ≤ n := by
  unfold t_hi2
  omega

/-- Lower destination test: inside the tile interior, the slab test at the
lower slab edge and the full-grid test at row zero agree. -/
theorem axisCond_lower_iff (n S rf yo r a : ℕ) (d : ℤ) (hrf : 1 ≤ rf)
    (hd : |d| ≤ (padding : ℤ)) (h1 : yo ≤ r) (h2 : r < t_hi n S yo) :
    ((rf : ℤ) * (t_lo yo : ℤ) ≤ (r : ℤ) * rf + a - d) ↔
      (0 ≤ (r : ℤ) * rf + a - d) := by
  have hpad : (padding : ℤ) = 130 := rfl
  rw [hpad] at hd
  have habs := abs_le.mp hd
  have hrfz : (1 : ℤ) ≤ (rf : ℤ) := by exact_mod_cast hrf
  have hrz : (yo : ℤ) ≤ (r : ℤ) := by exact_mod_cast h1
  have hmono1 : (yo : ℤ) * rf ≤ (r : ℤ) * rf :=
    mul_le_mul_of_nonneg_right hrz (by linarith)
  by_cases hcase : yo ≤ 130
  · have hz : t_lo yo = 0 := by
      unfold t_lo padding
      omega
    rw [hz]
    push_cast
    constructor <;> intro h <;> linarith
  · have hyo : (130 : ℕ) ≤ yo := by omega
    have hz : (t_lo yo : ℤ) = (yo : ℤ) - 130 := by
      unfold t_lo padding
      omega
    have hyo131 : (131 : ℤ) ≤ (yo : ℤ) := by exact_mod_cast (by omega : 131 ≤ yo)
    have hyole : (yo : ℤ) ≤ (yo : ℤ) * rf :=
      le_mul_of_one_le_right (by linarith) hrfz
    have h130 : (130 : ℤ) ≤ (rf : ℤ) * 130 :=
      le_mul_of_one_le_left (by norm_num) hrfz
    have e5 : (rf : ℤ) * ((yo : ℤ) - 130) = (yo : ℤ) * rf - (rf : ℤ) * 130 := by
      ring
    rw [hz, e5]
    have haz : (0 : ℤ) ≤ (a : ℤ) := Int.natCast_nonneg a
    constructor <;> intro h <;> linarith

/-- Upper destination test: inside the tile interior, the slab test at the
upper slab edge and the full-grid test at the last row agree. -/
theorem axisCond_upper_iff (n S rf yo r a : ℕ) (d : ℤ) (hrf : 1 ≤ rf)
    (hd : |d| ≤ (padding : ℤ)) (h1 : yo ≤ r) (h2 : r < t_hi n S yo)
    (ha : a < rf) :
    ((r : ℤ) * rf + a - d < (rf : ℤ) * (t_hi2 n S yo : ℤ)) ↔
      ((r : ℤ) * rf + a - d < (rf : ℤ) * (n : ℤ)) := by
  have hpad : (padding : ℤ) = 130 := rfl
  rw [hpad] at hd
  have habs := abs_le.mp hd
  have hrfz : (1 : ℤ) ≤ (rf : ℤ) := by exact_mod_cast hrf
  have haz : (a : ℤ) < (rf : ℤ) := by exact_mod_cast ha
  have h130 : (130 : ℤ) ≤ (rf : ℤ) * 130 :=
    le_mul_of_one_le_left (by norm_num) hrfz
  by_cases hcase : t_hi n S yo + padding ≤ n
  · have hz : (t_hi2 n S yo : ℤ) = (t_hi n S yo : ℤ) + 130 := by
      unfold t_hi2
      rw [min_eq_right hcase]
      unfold padding
      push_cast
      ring
    have hle : (t_hi2 n S yo : ℤ) ≤ (n : ℤ) := by exact_mod_cast t_hi2_le n S yo
    have hmono2 : (rf : ℤ) * (t_hi2 n S yo : ℤ) ≤ (rf : ℤ) * n :=
      mul_le_mul_of_nonneg_left hle (by linarith)
    have hryp : (r : ℤ) + 1 ≤ (t_hi n S yo : ℤ) := by exact_mod_cast h2
    have hmul1 : ((r : ℤ) + 1) * rf ≤ (t_hi n S yo : ℤ) * rf :=
      mul_le_mul_of_nonneg_right hryp (by linarith)
    have e3 : ((r : ℤ) + 1) * rf = (r : ℤ) * rf + rf := by ring
    have e4 : (rf : ℤ) * ((t_hi n S yo : ℤ) + 130) =
        (t_hi n S yo : ℤ) * rf + (rf : ℤ) * 130 := by ring
    rw [hz] at hmono2 ⊢
    constructor <;> intro h
    · linarith
    · rw [e4]
      linarith
  · have hz : (t_hi2 n S yo : ℤ) = (n : ℤ) := by
      unfold t_hi2
      rw [min_eq_left (by omega)]
    rw [hz]

/-- Both destination tests of one axis at once: inside the tile interior the
slab-relative test equals the full-grid test. -/
theorem axisCond_iff (n S rf yo r a : ℕ) (d : ℤ) (hrf : 1 ≤ rf)
    (hd : |d| ≤ (padding : ℤ)) (h1 : yo ≤ r) (h2 : r < t_hi n S yo)
    (ha : a < rf) :
    (0 ≤ (((r - t_lo yo) * rf + a : ℕ) : ℤ) - d ∧
      (((r - t_lo yo) * rf + a : ℕ) : ℤ) - d <
        ((rf * (t_hi2 n S yo - t_lo yo) : ℕ) : ℤ)) ↔
    (0 ≤ ((r * rf + a : ℕ) : ℤ) - d ∧
      ((r * rf + a : ℕ) : ℤ) - d < ((rf * n : ℕ) : ℤ)) := by
  have hylo : t_lo yo ≤ r := le_trans (t_lo_le yo) h1
  have hle : t_lo yo ≤ t_hi2 n S yo :=
    le_trans hylo (le_trans (le_of_lt h2) (t_hi_le_t_hi2 n S yo))
  have hI : (((r - t_lo yo) * rf + a : ℕ) : ℤ) - d =
      ((r : ℤ) * rf + a - d) - (rf : ℤ) * (t_lo yo : ℤ) := by
    push_cast [Nat.cast_sub hylo]
    ring
  have hU : ((r * rf + a : ℕ) : ℤ) - d = (r : ℤ) * rf + a - d := by
    push_cast
    ring
  have hH : ((rf * (t_hi2 n S yo - t_lo yo) : ℕ) : ℤ) =
      (rf : ℤ) * (t_hi2 n S yo : ℤ) - (rf : ℤ) * (t_lo yo : ℤ) := by
    push_cast [Nat.cast_sub hle]
    ring
  have hN : ((rf * n : ℕ) : ℤ) = (rf : ℤ) * (n : ℤ) := by
    push_cast
    ring
  rw [hI, hU, hH, hN]
  have hlow := axisCond_lower_iff n S rf yo r a d hrf hd h1 h2
  have hupp := axisCond_upper_iff n S rf yo r a d hrf hd h1 h2 ha
  constructor
  · rintro ⟨p, q⟩
    exact ⟨hlow.mp (by linarith), hupp.mp (by linarith)⟩
  · rintro ⟨p, q⟩
    have p2 := hlow.mpr p
    have q2 := hupp.mpr q
    exact ⟨by linarith, by linarith⟩

/-- Shifted source index: slab-relative row plus slab offset equals the
full-grid row. -/
theorem shiftIndex_eq (rf yo r a : ℕ) (d : ℤ) (h1 : yo ≤ r) (hrf : 1 ≤ rf)
    (hpos : 0 ≤ (((r - t_lo yo) * rf + a : ℕ) : ℤ) - d) :
    t_lo yo + ((((r - t_lo yo) * rf + a : ℕ) : ℤ) - d).toNat / rf =
      (((r * rf + a : ℕ) : ℤ) - d).toNat / rf := by
  have hylo : t_lo yo ≤ r := le_trans (t_lo_le yo) h1
  have heq : (((r * rf + a : ℕ) : ℤ) - d) =
      ((((r - t_lo yo) * rf + a : ℕ) : ℤ) - d) + ((rf * t_lo yo : ℕ) : ℤ) := by
    push_cast [Nat.cast_sub hylo]
    ring
  rw [heq, Int.toNat_add_nat hpos]
  rw [Nat.add_mul_div_left _ _ (by omega : 0 < rf)]
  exact Nat.add_comm _ _

/-- Up-sampled index division: the replication offset drops out. -/
theorem mul_add_div_of_lt (i rf a : ℕ) (hrf : 0 < rf) (ha : a < rf) :
    (i * rf + a) / rf = i := by
  rw [Nat.mul_comm, Nat.mul_add_div hrf, Nat.div_eq_of_lt ha]
  omega

/-- Stale source index: slab-relative row plus slab offset equals the
full-grid row on the else branch too. -/
theorem staleIndex_eq (rf yo r a : ℕ) (h1 : yo ≤ r) (hrf : 1 ≤ rf)
    (ha : a < rf) :
    t_lo yo + ((r - t_lo yo) * rf + a) / rf = (r * rf + a) / rf := by
  have hylo : t_lo yo ≤ r := le_trans (t_lo_le yo) h1
  rw [mul_add_div_of_lt _ _ _ (by omega) ha, mul_add_div_of_lt _ _ _ (by omega) ha]
  omega

/-- Inside the interior of any tile, the slab-shifted plane agrees with the
tile-free full-grid shifted plane at every up-sampled position, provided the
frame survived the skip test of line 258. -/
theorem shiftedPlane_eq_globalShifted (plane : ℕ → ℕ → F) (dy dx : ℤ)
    (H W S rf yo xo r c a b : ℕ) (hrf : 1 ≤ rf)
    (hdy : |dy| ≤ (padding : ℤ)) (hdx : |dx| ≤ (padding : ℤ))
    (hy1 : yo ≤ r) (hy2 : r < t_hi H S yo)
    (hx1 : xo ≤ c) (hx2 : c < t_hi W S xo)
    (ha : a < rf) (hb : b < rf) :
    shiftedPlane plane dy dx (t_lo yo) (t_hi2 H S yo) (t_lo xo) (t_hi2 W S xo)
        rf ((r - t_lo yo) * rf + a) ((c - t_lo xo) * rf + b) =
      globalShifted plane dy dx H W rf (r * rf + a) (c * rf + b) := by
  have hcy := axisCond_iff H S rf yo r a dy hrf hdy hy1 hy2 ha
  have hcx := axisCond_iff W S rf xo c b dx hrf hdx hx1 hx2 hb
  unfold shiftedPlane globalShifted
  have hTG : (0 ≤ (((r - t_lo yo) * rf + a : ℕ) : ℤ) - dy ∧
      (((r - t_lo yo) * rf + a : ℕ) : ℤ) - dy <
        ((rf * (t_hi2 H S yo - t_lo yo) : ℕ) : ℤ) ∧
      0 ≤ (((c - t_lo xo) * rf + b : ℕ) : ℤ) - dx ∧
      (((c - t_lo xo) * rf + b : ℕ) : ℤ) - dx <
        ((rf * (t_hi2 W S xo - t_lo xo) : ℕ) : ℤ)) ↔
      (0 ≤ ((r * rf + a : ℕ) : ℤ) - dy ∧
      ((r * rf + a : ℕ) : ℤ) - dy < ((rf * H : ℕ) : ℤ) ∧
      0 ≤ ((c * rf + b : ℕ) : ℤ) - dx ∧
      ((c * rf + b : ℕ) : ℤ) - dx < ((rf * W : ℕ) : ℤ)) := by
    constructor
    · rintro ⟨p1, p2, p3, p4⟩
      obtain ⟨q1, q2⟩ := hcy.mp ⟨p1, p2⟩
      obtain ⟨q3, q4⟩ := hcx.mp ⟨p3, p4⟩
      exact ⟨q1, q2, q3, q4⟩
    · rintro ⟨q1, q2, q3, q4⟩
      obtain ⟨p1, p2⟩ := hcy.mpr ⟨q1, q2⟩
      obtain ⟨p3, p4⟩ := hcx.mpr ⟨q3, q4⟩
      exact ⟨p1, p2, p3, p4⟩
  by_cases hG : 0 ≤ ((r * rf + a : ℕ) : ℤ) - dy ∧
      ((r * rf + a : ℕ) : ℤ) - dy < ((rf * H : ℕ) : ℤ) ∧
      0 ≤ ((c * rf + b : ℕ) : ℤ) - dx ∧
      ((c * rf + b : ℕ) : ℤ) - dx < ((rf * W : ℕ) : ℤ)
  · have hT := hTG.mpr hG
    rw [if_pos hT, if_pos hG]
    rw [shiftIndex_eq rf yo r a dy hy1 hrf hT.1,
      shiftIndex_eq rf xo c b dx hx1 hrf hT.2.2.1]
  · rw [if_neg (fun hT => hG (hTG.mp hT)), if_neg hG]
    rw [staleIndex_eq rf yo r a hy1 hrf ha, staleIndex_eq rf xo c b hx1 hrf hb]

/-- down_sample_2d under the divisibility precondition, as a helper: the
recomputed factors coincide with f and the output is f by f block
averaging. -/
theorem down_sample_2d_blocks (X : Img) (f k m : ℕ) (hf : 1 ≤ f)
    (hh : X.h = f * k) (hw : X.w = f * m) (hk : 0 < k) (hm : 0 < m) :
    down_sample_2d X f = some ⟨k, m, fun i j =>
      (Fsum ((List.range f).flatMap (fun a => (List.range f).map (fun b =>
        X.data (i * f + a) (j * f + b))))).div
        (F.fin ((f : ℚ) * (f : ℚ)))⟩ := by
  have hf0 : 0 < f := hf
  have e1 : X.h / f = k := by rw [hh]; exact Nat.mul_div_cancel_left _ hf0
  have e2 : X.w / f = m := by rw [hw]; exact Nat.mul_div_cancel_left _ hf0
  have e3 : X.h / k = f := by rw [hh]; exact Nat.mul_div_cancel _ hk
  have e4 : X.w / m = f := by rw [hw]; exact Nat.mul_div_cancel _ hm
  have hc1 : ¬(f = 0) := by omega
  have hc2 : ¬(k = 0 ∨ m = 0) := by omega
  unfold down_sample_2d
  simp only [e1, e2, e3, e4]
  rw [if_neg hc1, if_neg hc2, if_pos ⟨by rw [hh]; ring, by rw [hw]; ring⟩]

/-- A frame surviving the skip test of line 258 has both shifts within the
padding margin. -/
theorem retained_small_shift (hdus : List Frame) (f : Frame)
    (hf : f ∈ retainedFrames hdus) :
    |f.dx| ≤ (padding : ℤ) ∧ |f.dy| ≤ (padding : ℤ) := by
  have h := (List.mem_filter.mp hf).2
  unfold skipFrame at h
  rw [Bool.not_or, Bool.and_eq_true] at h
  obtain ⟨h1, h2⟩ := h
  rw [Bool.not_eq_true'] at h1 h2
  rw [decide_eq_false_iff_not] at h1 h2
  exact ⟨not_lt.mp h1, not_lt.mp h2⟩

theorem flatMap_congr_left (l : List ℕ) (f g : ℕ → List F)
    (h : ∀ a ∈ l, f a = g a) : l.flatMap f = l.flatMap g := by
  induction l with
  | nil => rfl
  | cons x xs ih =>
      rw [List.flatMap_cons, List.flatMap_cons, h x (by simp),
        ih (fun a ha => h a (by simp [ha]))]

/-- Inside the interior of a tile, the per-tile outs stack equals the
tile-free outs stack at the corresponding absolute up-sampled position. -/
theorem tileOuts_eq_globalOuts (hdus : List Frame) (H W S rf yo xo r c a b : ℕ)
    (hrf : 1 ≤ rf) (hy1 : yo ≤ r) (hy2 : r < t_hi H S yo)
    (hx1 : xo ≤ c) (hx2 : c < t_hi W S xo) (ha : a < rf) (hb : b < rf) :
    tileOuts hdus (t_lo yo) (t_hi2 H S yo) (t_lo xo) (t_hi2 W S xo) rf
        ((r - t_lo yo) * rf + a) ((c - t_lo xo) * rf + b) =
      globalOuts hdus H W rf (r * rf + a) (c * rf + b) := by
  unfold tileOuts globalOuts
  apply List.map_congr_left
  intro f hf
  obtain ⟨hdx, hdy⟩ := retained_small_shift hdus f hf
  exact shiftedPlane_eq_globalShifted f.image f.dy f.dx H W S rf yo xo r c a b
    hrf hdy hdx hy1 hy2 hx1 hx2 ha hb

/-- Inside the interior of a tile, the per-tile variance stack equals the
tile-free variance stack at the corresponding absolute position. -/
theorem tileVars_eq_globalVars (hdus : List Frame) (H W S rf yo xo r c a b : ℕ)
    (hrf : 1 ≤ rf) (hy1 : yo ≤ r) (hy2 : r < t_hi H S yo)
    (hx1 : xo ≤ c) (hx2 : c < t_hi W S xo) (ha : a < rf) (hb : b < rf) :
    tileVars hdus (t_lo yo) (t_hi2 H S yo) (t_lo xo) (t_hi2 W S xo) rf
        ((r - t_lo yo) * rf + a) ((c - t_lo xo) * rf + b) =
      globalVars hdus H W rf (r * rf + a) (c * rf + b) := by
  unfold tileVars globalVars
  apply List.map_congr_left
  intro f hf
  obtain ⟨hdx, hdy⟩ := retained_small_shift hdus f hf
  exact shiftedPlane_eq_globalShifted f.variance f.dy f.dx H W S rf yo xo r c a b
    hrf hdy hdx hy1 hy2 hx1 hx2 ha hb

/-- The value a tile writes at an interior pixel of its section equals the
tile-free image pixel there. -/
theorem tileWriteVal_img_eq (g : Combine) (hdus : List Frame)
    (H W S rf yo xo r c : ℕ) (hrf : 1 ≤ rf)
    (hy1 : yo ≤ r) (hy2 : r < t_hi H S yo)
    (hx1 : xo ≤ c) (hx2 : c < t_hi W S xo) :
    tileWriteVal
        (tileStackImg g hdus (t_lo yo) (t_hi2 H S yo) (t_lo xo) (t_hi2 W S xo) rf)
        rf yo xo r c =
      globalImagePixel g hdus H W rf r c := by
  have hylo := t_lo_le yo
  have hxlo := t_lo_le xo
  have hyhi := t_hi_le_t_hi2 H S yo
  have hxhi := t_hi_le_t_hi2 W S xo
  have hk : 0 < t_hi2 H S yo - t_lo yo := by omega
  have hm : 0 < t_hi2 W S xo - t_lo xo := by omega
  unfold tileWriteVal
  rw [down_sample_2d_blocks
    (tileStackImg g hdus (t_lo yo) (t_hi2 H S yo) (t_lo xo) (t_hi2 W S xo) rf)
    rf (t_hi2 H S yo - t_lo yo) (t_hi2 W S xo - t_lo xo) hrf rfl rfl hk hm]
  rw [Option.getD_some]
  dsimp only
  have hi1 : (yo - t_lo yo) + (r - yo) = r - t_lo yo := by omega
  have hi2 : (xo - t_lo xo) + (c - xo) = c - t_lo xo := by omega
  rw [hi1, hi2]
  unfold globalImagePixel
  refine congrArg (fun l => F.div (Fsum l)
    (F.fin ((rf : ℚ) * (rf : ℚ)))) ?_
  apply flatMap_congr_left
  intro a hamem
  apply List.map_congr_left
  intro b hbmem
  rw [List.mem_range] at hamem hbmem
  show g (tileOuts hdus (t_lo yo) (t_hi2 H S yo) (t_lo xo) (t_hi2 W S xo) rf
      ((r - t_lo yo) * rf + a) ((c - t_lo xo) * rf + b))
    (tileVars hdus (t_lo yo) (t_hi2 H S yo) (t_lo xo) (t_hi2 W S xo) rf
      ((r - t_lo yo) * rf + a) ((c - t_lo xo) * rf + b)) = _
  rw [tileOuts_eq_globalOuts hdus H W S rf yo xo r c a b hrf hy1 hy2 hx1 hx2
      hamem hbmem,
    tileVars_eq_globalVars hdus H W S rf yo xo r c a b hrf hy1 hy2 hx1 hx2
      hamem hbmem]

/-- The variance value a tile writes at an interior pixel of its section
equals the tile-free variance pixel there. -/
theorem tileWriteVal_var_eq (hdus : List Frame) (H W S rf yo xo r c : ℕ)
    (hrf : 1 ≤ rf) (hy1 : yo ≤ r) (hy2 : r < t_hi H S yo)
    (hx1 : xo ≤ c) (hx2 : c < t_hi W S xo) :
    tileWriteVal
        (tileStackVar hdus (t_lo yo) (t_hi2 H S yo) (t_lo xo) (t_hi2 W S xo) rf)
        rf yo xo r c =
      globalVarPixel hdus H W rf r c := by
  have hylo := t_lo_le yo
  have hxlo := t_lo_le xo
  have hyhi := t_hi_le_t_hi2 H S yo
  have hxhi := t_hi_le_t_hi2 W S xo
  have hk : 0 < t_hi2 H S yo - t_lo yo := by omega
  have hm : 0 < t_hi2 W S xo - t_lo xo := by omega
  unfold tileWriteVal
  rw [down_sample_2d_blocks
    (tileStackVar hdus (t_lo yo) (t_hi2 H S yo) (t_lo xo) (t_hi2 W S xo) rf)
    rf (t_hi2 H S yo - t_lo yo) (t_hi2 W S xo - t_lo xo) hrf rfl rfl hk hm]
  rw [Option.getD_some]
  dsimp only
  have hi1 : (yo - t_lo yo) + (r - yo) = r - t_lo yo := by omega
  have hi2 : (xo - t_lo xo) + (c - xo) = c - t_lo xo := by omega
  rw [hi1, hi2]
  unfold globalVarPixel
  refine congrArg (fun l => F.div (Fsum l)
    (F.fin ((rf : ℚ) * (rf : ℚ)))) ?_
  apply flatMap_congr_left
  intro a hamem
  apply List.map_congr_left
  intro b hbmem
  rw [List.mem_range] at hamem hbmem
  show (nanmean (tileVars hdus (t_lo yo) (t_hi2 H S yo) (t_lo xo) (t_hi2 W S xo)
      rf ((r - t_lo yo) * rf + a) ((c - t_lo xo) * rf + b))).div
    (F.fin ((numFrames hdus (t_lo yo) (t_hi2 H S yo) (t_lo xo) (t_hi2 W S xo)
      rf ((r - t_lo yo) * rf + a) ((c - t_lo xo) * rf + b) : ℚ))) = _
  unfold numFrames
  rw [tileOuts_eq_globalOuts hdus H W S rf yo xo r c a b hrf hy1 hy2 hx1 hx2
      hamem hbmem,
    tileVars_eq_globalVars hdus H W S rf yo xo r c a b hrf hy1 hy2 hx1 hx2
      hamem hbmem]

/-- Membership of the covering tile origin in the tile grid. -/
theorem coveringTile_mem (H W S r c : ℕ) (hS : 1 ≤ S) (hr : r < H)
    (hc : c < W) : ((r / S) * S, (c / S) * S) ∈ tileGrid H W S := by
  obtain ⟨hmemY, _, _⟩ := arange_covering H S r hS hr
  obtain ⟨hmemX, _, _⟩ := arange_covering W S c hS hc
  unfold tileGrid
  exact List.mem_flatMap.mpr
    ⟨(r / S) * S, hmemY, List.mem_map.mpr ⟨(c / S) * S, hmemX, rfl⟩⟩

/-- Uniqueness of the covering tile in the grid. -/
theorem coveringTile_unique (H W S r c : ℕ) (hS : 1 ≤ S) (t : ℕ × ℕ)
    (ht : t ∈ tileGrid H W S) (hcov : tileCovers H W S t r c) :
    t = ((r / S) * S, (c / S) * S) := by
  unfold tileGrid at ht
  obtain ⟨yo2, hyo2, ht2⟩ := List.mem_flatMap.mp ht
  obtain ⟨xo2, hxo2, rfl⟩ := List.mem_map.mp ht2
  unfold tileCovers at hcov
  obtain ⟨h1, h2, h3, h4⟩ := hcov
  have e1 := arange_covering_unique H S r yo2 hS hyo2 h1 h2
  have e2 := arange_covering_unique W S c xo2 hS hxo2 h3 h4
  rw [e1, e2]

/-- Every in-range pixel of the tiled output image equals the tile-free
image pixel. -/
theorem shiftImage_eq_global (g : Combine) (hdus : List Frame)
    (H W rf S r c : ℕ) (hrf : 1 ≤ rf) (hS : 1 ≤ S) (hr : r < H) (hc : c < W) :
    shiftImage g hdus H W rf S r c = globalImagePixel g hdus H W rf r c := by
  obtain ⟨hmemY, hleY, hltY⟩ := arange_covering H S r hS hr
  obtain ⟨hmemX, hleX, hltX⟩ := arange_covering W S c hS hc
  have hcov : tileCovers H W S ((r / S) * S, (c / S) * S) r c := by
    unfold tileCovers
    exact ⟨hleY, hltY, hleX, hltX⟩
  have key := foldWrite_unique H W S
    (fun yo xo => tileWriteVal
      (tileStackImg g hdus (t_lo yo) (t_hi2 H S yo) (t_lo xo) (t_hi2 W S xo) rf)
      rf yo xo)
    r c (tileGrid H W S) ((r / S) * S, (c / S) * S)
    (coveringTile_mem H W S r c hS hr hc) hcov
    (fun t ht hcovt => coveringTile_unique H W S r c hS t ht hcovt)
    (nodup_tileGrid H W S hS) (fun _ _ => F.fin 0)
  calc shiftImage g hdus H W rf S r c
      = tileWriteVal
          (tileStackImg g hdus (t_lo ((r / S) * S)) (t_hi2 H S ((r / S) * S))
            (t_lo ((c / S) * S)) (t_hi2 W S ((c / S) * S)) rf)
          rf ((r / S) * S) ((c / S) * S) r c := key
    _ = globalImagePixel g hdus H W rf r c :=
        tileWriteVal_img_eq g hdus H W S rf ((r / S) * S) ((c / S) * S) r c
          hrf hleY hltY hleX hltX

/-- Every in-range pixel of the tiled output variance equals the tile-free
variance pixel. -/
theorem shiftVariance_eq_global (hdus : List Frame) (H W rf S r c : ℕ)
    (hrf : 1 ≤ rf) (hS : 1 ≤ S) (hr : r < H) (hc : c < W) :
    shiftVariance hdus H W rf S r c = globalVarPixel hdus H W rf r c := by
  obtain ⟨hmemY, hleY, hltY⟩ := arange_covering H S r hS hr
  obtain ⟨hmemX, hleX, hltX⟩ := arange_covering W S c hS hc
  have hcov : tileCovers H W S ((r / S) * S, (c / S) * S) r c := by
    unfold tileCovers
    exact ⟨hleY, hltY, hleX, hltX⟩
  have key := foldWrite_unique H W S
    (fun yo xo => tileWriteVal
      (tileStackVar hdus (t_lo yo) (t_hi2 H S yo) (t_lo xo) (t_hi2 W S xo) rf)
      rf yo xo)
    r c (tileGrid H W S) ((r / S) * S, (c / S) * S)
    (coveringTile_mem H W S r c hS hr hc) hcov
    (fun t ht hcovt => coveringTile_unique H W S r c hS t ht hcovt)
    (nodup_tileGrid H W S hS) (fun _ _ => F.fin 0)
  calc shiftVariance hdus H W rf S r c
      = tileWriteVal
          (tileStackVar hdus (t_lo ((r / S) * S)) (t_hi2 H S ((r / S) * S))
            (t_lo ((c / S) * S)) (t_hi2 W S ((c / S) * S)) rf)
          rf ((r / S) * S) ((c / S) * S) r c := key
    _ = globalVarPixel hdus H W rf r c :=
        tileWriteVal_var_eq hdus H W S rf ((r / S) * S) ((c / S) * S) r c
          hrf hleY hltY hleX hltX

/-- A one-frame stack with constant planes and zero shift, for exercising
the tiling theorem at a concrete input. -/
def witnessFrame : Frame := ⟨fun _ _ => F.fin 5, fun _ _ => F.fin 1, 0, 0⟩

/-- A concrete per-pixel combination statistic: the nan-aware sum of the
shifted values. -/
def witnessCombine : Combine := fun vs _ => nansum vs

/-- Claim C5: tiling does not alter the result.  For every per-pixel
combination statistic, every frame stack, every reference shape and
up-sampling factor, and every two positive section sizes, the tiled shift
produces identical output image and variance values at every in-range
pixel; taking the first section size at least max(H, W) gives the
single-tile run of the claim, so in particular the single giant tile and
any smaller tiling agree. -/
theorem c5_tiling_invariance (g : Combine) (hdus : List Frame)
    (H W rf S1 S2 r c : ℕ) (hrf : 1 ≤ rf) (hS1 : 1 ≤ S1) (hS2 : 1 ≤ S2)
    (hr : r < H) (hc : c < W) :
    shiftImage g hdus H W rf S1 r c = shiftImage g hdus H W rf S2 r c ∧
      shiftVariance hdus H W rf S1 r c = shiftVariance hdus H W rf S2 r c := by
  constructor
  · rw [shiftImage_eq_global g hdus H W rf S1 r c hrf hS1 hr hc,
      shiftImage_eq_global g hdus H W rf S2 r c hrf hS2 hr hc]
  · rw [shiftVariance_eq_global hdus H W rf S1 r c hrf hS1 hr hc,
      shiftVariance_eq_global hdus H W rf S2 r c hrf hS2 hr hc]

/-- Witness for claim C5: a 2 by 2 reference with one constant frame, the
single-tile run (section size 2) against the four-tile run (section size
1), at pixel (0, 0) with no up-sampling. -/
theorem c5_witness :
    (1 : ℕ) ≤ 1 ∧ (1 : ℕ) ≤ 2 ∧ (1 : ℕ) ≤ 1 ∧ (0 : ℕ) < 2 ∧ (0 : ℕ) < 2 ∧
      (shiftImage witnessCombine [witnessFrame] 2 2 1 2 0 0 =
          shiftImage witnessCombine [witnessFrame] 2 2 1 1 0 0 ∧
        shiftVariance [witnessFrame] 2 2 1 2 0 0 =
          shiftVariance [witnessFrame] 2 2 1 1 0 0) :=
  ⟨by decide, by decide, by decide, by decide, by decide,
    c5_tiling_invariance witnessCombine [witnessFrame] 2 2 1 2 1 0 0
      (by decide) (by decide) (by decide) (by decide) (by decide)⟩

end SNS
